import Mathlib

/-!
Verification development for the `anchors` incremental-computation engine.

Part 1 embeds `src/singlethread/graph2.rs`: the arena of node slots with a
free list, the height-bucketed recalculation queue, the visited-flag height
raising walk, the necessary-children bookkeeping, and the handle layer
guarded by the engine-wide `still_alive` flag.

Part 2 embeds the `src/singlethread.rs` engine revision together with
`src/graph.rs` (`MetadataGraph`), `src/fakeheap.rs` (`FakeHeap`),
`src/nodequeue.rs` (`NodeQueue`), and the node behaviours of `src/var.rs`
and `src/ext/then.rs`.

Machine integers (`usize`, `u32`, `u64`) are embedded as `Nat`: none of the
embedded code paths exercise overflow. `Cell`/`RefCell` interior mutability
becomes explicit state passing. Rust panics (including failed `assert_eq!`
and `unwrap`) are embedded as `Option.none` results. Recursive procedures
take an explicit fuel argument; the Rust originals terminate because heights
only grow and the visited flag bounds the recursion, so a large enough fuel
reproduces them exactly.
-/

/-- `RecalcState` from graph2.rs: whether a node is stale, queued, or done. -/
inductive RecalcState where
  | Needed
  | Pending
  | Ready
deriving DecidableEq, Repr

/-- One arena slot of graph2.rs: the `Node` struct together with its
`NodePtrs`. The `anchor` field records only whether the slot's
`RefCell<Option<Box<dyn GenericAnchor>>>` currently holds `Some`. -/
structure G2Node where
  observed : Bool := false
  visited : Bool := false
  necessaryCount : Nat := 0
  token : Nat := 0
  lastReady : Option Nat := none
  lastUpdate : Option Nat := none
  anchor : Bool := false
  cleanParent0 : Option Nat := none
  cleanParents : List Nat := []
  next : Option Nat := none
  prev : Option Nat := none
  recalcState : RecalcState := .Needed
  necessaryChildren : List Nat := []
  height : Nat := 0
  handleCount : Nat := 0
deriving DecidableEq, Repr

instance : Inhabited G2Node := ⟨{}⟩

/-- The `Graph2` struct of graph2.rs. Node pointers are embedded as arena
indices; `arena` is total with default (never-allocated) slots past
`arenaLen`. `token` is the engine-wide token handed out by `NEXT_TOKEN`
at construction. -/
structure Graph2 where
  arena : Nat → G2Node
  arenaLen : Nat
  token : Nat
  stillAlive : Bool
  recalcQueues : List (Option Nat)
  recalcMinHeight : Nat
  recalcMaxHeight : Nat
  freeHead : Option Nat

/-- `NodeKey` from graph2.rs: a raw slot pointer plus the token copied from
the slot at key creation. -/
structure NodeKey where
  ptr : Nat
  token : Nat
deriving DecidableEq, Repr

/-- Read an arena slot (`NodePtr::lookup_unchecked`). -/
def aget (g : Graph2) (p : Nat) : G2Node := g.arena p

/-- Write an arena slot. -/
def aset (g : Graph2) (p : Nat) (nd : G2Node) : Graph2 :=
  { g with arena := fun j => if j = p then nd else g.arena j }

/-- Update an arena slot through a function (a batch of `Cell` writes). -/
def modifyNode (g : Graph2) (p : Nat) (f : G2Node → G2Node) : Graph2 :=
  aset g p (f (aget g p))

/-- `Graph2::new(max_height)`, with the engine token made explicit (the Rust
code draws it from the `NEXT_TOKEN` thread-local counter, which hands a
distinct number to each engine). -/
def g2new (maxHeight tok : Nat) : Graph2 where
  arena := fun _ => {}
  arenaLen := 0
  token := tok
  stillAlive := true
  recalcQueues := List.replicate maxHeight none
  recalcMinHeight := maxHeight
  recalcMaxHeight := 0
  freeHead := none

/-- `Graph2::insert`: pop the free-list head if one exists (resetting every
per-node field), otherwise bump-allocate a fresh slot. Returns the new
`AnchorHandle`'s key. The immutable `token` field of a reused slot is left
as allocated (it always equals the graph token). -/
def g2insert (g : Graph2) : Graph2 × NodeKey :=
  match g.freeHead with
  | some fh =>
    let node := aget g fh
    let g := { g with freeHead := node.next }
    let g :=
      match node.next with
      | some np => modifyNode g np (fun n => { n with prev := none })
      | none => g
    let g := modifyNode g fh (fun n =>
      { n with observed := false, visited := false, necessaryCount := 0,
               cleanParent0 := none, cleanParents := [],
               recalcState := .Needed, necessaryChildren := [],
               height := 0, handleCount := 1, prev := none, next := none,
               lastReady := none, lastUpdate := none, anchor := true })
    (g, ⟨fh, g.token⟩)
  | none =>
    let ptr := g.arenaLen
    let node : G2Node := { token := g.token, anchor := true, handleCount := 1 }
    ({ g with arena := fun j => if j = ptr then node else g.arena j,
              arenaLen := g.arenaLen + 1 },
     ⟨ptr, g.token⟩)

/-- `Graph2Guard::get`: resolve a key, refusing it when its token does not
match the graph's token; otherwise hand back a guard for the slot. -/
def g2get (g : Graph2) (k : NodeKey) : Option Nat :=
  if k.token ≠ g.token then none else some k.ptr

/-- `dequeue_calc` from graph2.rs, embedded exactly as written — including
the line that writes the removed node's `prev` into its successor's `next`
field. The failed `assert_eq!` on the bucket head becomes `none`. -/
def dequeueCalcG2 (g : Graph2) (p : Nat) : Option Graph2 :=
  let node := aget g p
  if node.recalcState ≠ RecalcState.Pending then some g
  else
    let step1 : Option Graph2 :=
      match node.prev with
      | some pv => some (modifyNode g pv (fun n => { n with next := node.next }))
      | none =>
        let h := node.height
        if g.recalcQueues.getD h none = some p then
          some { g with recalcQueues := g.recalcQueues.set h node.next }
        else none
    match step1 with
    | none => none
    | some g =>
      let g :=
        match node.next with
        | some nx => modifyNode g nx (fun n => { n with next := node.prev })
        | none => g
      some (modifyNode g p (fun n => { n with prev := none, next := none }))

/-- `Graph2Guard::queue_recalc`: push a node at the head of its height's
bucket, widening the min/max window when the bucket was empty. Panics
(`none`) when the height reaches the queue capacity. -/
def queueRecalcG2 (g : Graph2) (p : Nat) : Option Graph2 :=
  if (aget g p).recalcState = RecalcState.Pending then some g
  else
    let g := modifyNode g p (fun n => { n with recalcState := .Pending })
    let h := (aget g p).height
    if h ≥ g.recalcQueues.length then none
    else
      match g.recalcQueues.getD h none with
      | some old =>
        let g := modifyNode g old (fun n => { n with prev := some p })
        let g := modifyNode g p (fun n => { n with next := some old })
        some { g with recalcQueues := g.recalcQueues.set h (some p) }
      | none =>
        let g := if g.recalcMinHeight > h then { g with recalcMinHeight := h } else g
        let g := if g.recalcMaxHeight < h then { g with recalcMaxHeight := h } else g
        some { g with recalcQueues := g.recalcQueues.set h (some p) }

/-- Loop body of `Graph2Guard::recalc_pop_next`; `gas` bounds the number of
empty buckets skipped (the Rust `while` advances `recalc_min_height` each
iteration, so `recalc_max_height + 2` steps always suffice). -/
def recalcPopAuxG2 : Nat → Graph2 → Option (Nat × Nat) × Graph2
  | 0, g => (none, g)
  | gas + 1, g =>
    if g.recalcMinHeight ≤ g.recalcMaxHeight then
      match g.recalcQueues.getD g.recalcMinHeight none with
      | some ptr =>
        let node := aget g ptr
        let g := { g with recalcQueues := g.recalcQueues.set g.recalcMinHeight node.next }
        let g :=
          match node.next with
          | some nx => modifyNode g nx (fun n => { n with prev := none })
          | none => g
        let g := modifyNode g ptr (fun n =>
          { n with prev := none, next := none, recalcState := .Ready })
        (some (g.recalcMinHeight, ptr), g)
      | none => recalcPopAuxG2 gas { g with recalcMinHeight := g.recalcMinHeight + 1 }
    else
      (none, { g with recalcMaxHeight := 0 })

/-- `Graph2Guard::recalc_pop_next`. -/
def recalcPopNextG2 (g : Graph2) : Option (Nat × Nat) × Graph2 :=
  recalcPopAuxG2 (g.recalcMaxHeight + 2) g

/-- `NodeGuard::add_necessary_child`: `binary_search` on the
pointer-sorted, duplicate-free list followed by a positional `insert` is
embedded as a membership test plus ordered insertion (they agree on sorted
lists); a newly inserted child's `necessary_count` is bumped. -/
def addNecessaryChildG2 (g : Graph2) (p c : Nat) : Graph2 :=
  let l := (aget g p).necessaryChildren
  if c ∈ l then g
  else
    let g := modifyNode g p (fun n =>
      { n with necessaryChildren := n.necessaryChildren.orderedInsert (· ≤ ·) c })
    modifyNode g c (fun n => { n with necessaryCount := n.necessaryCount + 1 })

/-- `NodeGuard::remove_necessary_child`: `binary_search` plus positional
`remove`, embedded as membership test plus `List.erase`; a removed child's
`necessary_count` is decremented. -/
def removeNecessaryChildG2 (g : Graph2) (p c : Nat) : Graph2 :=
  let l := (aget g p).necessaryChildren
  if c ∈ l then
    let g := modifyNode g p (fun n =>
      { n with necessaryChildren := n.necessaryChildren.erase c })
    modifyNode g c (fun n => { n with necessaryCount := n.necessaryCount - 1 })
  else g

/-- The decrement pass of `NodeGuard::drain_necessary_children`. -/
def decCounts (g : Graph2) (l : List Nat) : Graph2 :=
  l.foldl (fun g c => modifyNode g c (fun n =>
    { n with necessaryCount := n.necessaryCount - 1 })) g

/-- `NodeGuard::drain_necessary_children`: decrement every member's count,
then empty the list (the returned iterator clears it when dropped). -/
def drainNecessaryChildrenG2 (g : Graph2) (p : Nat) : Graph2 :=
  let g := decCounts g (aget g p).necessaryChildren
  modifyNode g p (fun n => { n with necessaryChildren := [] })

/-- `NodeGuard::drain_clean_parents` as used by `free` (the yielded guards
are discarded): take `clean_parent0` and clear the spill list. -/
def drainCleanParentsG2 (g : Graph2) (p : Nat) : Graph2 :=
  modifyNode g p (fun n => { n with cleanParent0 := none, cleanParents := [] })

/-- `free` from graph2.rs: release edges, dequeue if Pending, push the slot
onto the free list, and drop the inner anchor. -/
def g2free (g : Graph2) (p : Nat) : Option Graph2 :=
  let g := drainNecessaryChildrenG2 g p
  let g := drainCleanParentsG2 g p
  match dequeueCalcG2 g p with
  | none => none
  | some g =>
    let oldFree := g.freeHead
    let g :=
      match oldFree with
      | some ofp => modifyNode g ofp (fun n => { n with prev := some p })
      | none => g
    let g := modifyNode g p (fun n => { n with next := oldFree })
    let g := { g with freeHead := some p }
    some (modifyNode g p (fun n => { n with anchor := false }))

/-- `AnchorHandle::clone`: bump the slot's handle count, but only while the
engine's shared `still_alive` flag is set; the cloned handle carries the
same `NodeKey` either way. -/
def handleCloneG2 (g : Graph2) (k : NodeKey) : Graph2 × NodeKey :=
  if g.stillAlive then
    (modifyNode g k.ptr (fun n => { n with handleCount := n.handleCount + 1 }), k)
  else (g, k)

/-- `AnchorHandle::drop`: decrement the slot's handle count and free the
slot when it reaches zero — again only while `still_alive` is set. -/
def handleDropG2 (g : Graph2) (k : NodeKey) : Option Graph2 :=
  if g.stillAlive then
    let newCount := (aget g k.ptr).handleCount - 1
    let g := modifyNode g k.ptr (fun n => { n with handleCount := newCount })
    if newCount = 0 then g2free g k.ptr else some g
  else some g

/-- `Graph2::drop`: clear the shared `still_alive` flag. -/
def graphDropG2 (g : Graph2) : Graph2 :=
  { g with stillAlive := false }

/-- The order in which `NodeGuard::clean_parents` yields parents: the inline
`clean_parent0` first, then the spill vector. -/
def cleanParentsListG2 (g : Graph2) (n : Nat) : List Nat :=
  match (aget g n).cleanParent0 with
  | some p0 => p0 :: (aget g n).cleanParents
  | none => (aget g n).cleanParents

/-- `set_min_height` from graph2.rs, with the `for parent in
node.clean_parents()` loop folded into the same recursion: the list argument
holds the nodes still to be processed at the current target height. The
returned `Bool` is `false` for the `Err(())` outcome (a visited node was
re-entered, directly or in a recursive call). Exactly as in the source, a
node's visited flag is cleared only on its `Ok` path, the loop keeps
recursing into the remaining parents after one of them reports a cycle, and
only then propagates the error. The fuel counter is consumed per processed
node; any fuel at least `(number of nodes + 1)^2` is beyond the depth the
Rust recursion can reach. -/
def smhNodesG2 : Nat → Graph2 → List Nat → Nat → Option (Bool × Graph2)
  | _, g, [], _ => some (true, g)
  | 0, _, _ :: _, _ => none
  | fuel + 1, g, n :: rest, minH =>
    let nd := aget g n
    let step : Option (Bool × Graph2) :=
      if nd.visited then some (false, g)
      else
        let g := modifyNode g n (fun v => { v with visited := true })
        if nd.height < minH then
          let g := modifyNode g n (fun v => { v with height := minH })
          match smhNodesG2 fuel g (cleanParentsListG2 g n) (minH + 1) with
          | none => none
          | some (ok, g) =>
            if ok then some (true, modifyNode g n (fun v => { v with visited := false }))
            else some (false, g)
        else some (true, modifyNode g n (fun v => { v with visited := false }))
    match step with
    | none => none
    | some (ok1, g1) =>
      match smhNodesG2 fuel g1 rest minH with
      | none => none
      | some (ok2, g2) => some (ok1 && ok2, g2)

/-- `set_min_height(node, min_height)` itself: process the one-node list. -/
def setMinHeightG2 (fuel : Nat) (g : Graph2) (n minH : Nat) : Option (Bool × Graph2) :=
  smhNodesG2 fuel g [n] minH

/-- `ensure_height_increases` from graph2.rs: `Ok true` when the child is
already lower, otherwise mark the child visited, raise the parent, and clear
the child's flag on both outcomes. -/
def ensureHeightIncreasesG2 (fuel : Nat) (g : Graph2) (child parent : Nat) :
    Option (Except Unit Bool × Graph2) :=
  if (aget g child).height < (aget g parent).height then some (.ok true, g)
  else
    let g := modifyNode g child (fun v => { v with visited := true })
    match setMinHeightG2 fuel g parent ((aget g child).height + 1) with
    | none => none
    | some (ok, g) =>
      let g := modifyNode g child (fun v => { v with visited := false })
      some (if ok then .ok false else .error (), g)

/-- `add_clean_parent` from graph2.rs: store the first parent inline, spill
the rest into the vector. -/
def addCleanParentG2 (g : Graph2) (c p : Nat) : Graph2 :=
  if (aget g c).cleanParent0 = none then
    modifyNode g c (fun n => { n with cleanParent0 := some p })
  else
    modifyNode g c (fun n => { n with cleanParents := n.cleanParents ++ [p] })

/-- Repeatedly pop the recalc queue, collecting the `(height, node)` pairs
it yields. -/
def popAllG2 : Nat → Graph2 → List (Nat × Nat)
  | 0, _ => []
  | gas + 1, g =>
    match recalcPopNextG2 g with
    | (none, _) => []
    | (some hp, g') => hp :: popAllG2 gas g'

/-- Re-allocation scenario for the token layer: allocate a node in a fresh
engine (token 7), drop its only handle (which frees the slot), then allocate
again so the slot is reused. -/
def c2scenario : Option (NodeKey × NodeKey × Graph2) := do
  let g0 := g2new 8 7
  let (g1, k1) := g2insert g0
  let g2 ← handleDropG2 g1 k1
  let (g3, k2) := g2insert g2
  pure (k1, k2, g3)

/-- Recalc-queue scenario: three nodes queued into bucket 0 (list head `2`,
then `1`, then `0`), after which the middle node `1` is removed with
`dequeue_calc`, as happens when a node is freed while Pending. -/
def c3scenario : Option Graph2 := do
  let g0 := g2new 4 0
  let (g1, _) := g2insert g0
  let (g2, _) := g2insert g1
  let (g3, _) := g2insert g2
  let g4 ← queueRecalcG2 g3 0
  let g5 ← queueRecalcG2 g4 1
  let g6 ← queueRecalcG2 g5 2
  dequeueCalcG2 g6 1

/-- Height-raising scenario ending in a detected cycle: a clean-parent edge
`0 → 1` is recorded, then `ensure_height_increases 1 0` is asked to make
node `1` lower than node `0`, which walks the cycle. -/
def c4scenario : Option (Except Unit Bool × Graph2) := do
  let g0 := g2new 4 0
  let (g1, _) := g2insert g0
  let (g2, _) := g2insert g1
  let (_, g3) ← ensureHeightIncreasesG2 10 g2 0 1
  let g4 := addCleanParentG2 g3 0 1
  ensureHeightIncreasesG2 10 g4 1 0

/-- Projection facts: writing an arena slot only changes the arena. -/
theorem aset_token (g : Graph2) (p : Nat) (nd : G2Node) : (aset g p nd).token = g.token := rfl

/-- Writing an arena slot keeps the `still_alive` flag. -/
theorem aset_stillAlive (g : Graph2) (p : Nat) (nd : G2Node) :
    (aset g p nd).stillAlive = g.stillAlive := rfl

/-- Reading back through a slot write. -/
theorem aget_aset (g : Graph2) (p q : Nat) (nd : G2Node) :
    aget (aset g p nd) q = if q = p then nd else aget g q := rfl

/-- Reading back through a slot modification. -/
theorem aget_modifyNode (g : Graph2) (p q : Nat) (f : G2Node → G2Node) :
    aget (modifyNode g p f) q = if q = p then f (aget g p) else aget g q := rfl

/-- Modifying a slot only changes the arena. -/
theorem modifyNode_token (g : Graph2) (p : Nat) (f : G2Node → G2Node) :
    (modifyNode g p f).token = g.token := rfl

/-- C2 counterexample: in engine token `7`, the slot freed by the previous
identity is re-allocated with the *same* token `⟨0, 7⟩` as the old identity,
and `get` on the stale key resolves to the slot's new occupant (whose
anchor is live) instead of not-found. -/
theorem c2_stale_token_resolves_to_new_occupant :
    (c2scenario.map fun r =>
      (r.1, r.2.1, g2get r.2.2 r.1, (aget r.2.2 r.1.ptr).anchor)) =
    some (⟨0, 7⟩, ⟨0, 7⟩, some 0, true) := by
  decide

/-- C2 (amended): tokens are per-engine, not per-allocation. `get` returns
`none` exactly when the key's token differs from the graph's token (so
handles from another engine resolve to not-found), and every key minted by
`insert` — including one for a reused free-list slot — carries the graph's
own token, so a stale key from the previous identity of a reused slot
resolves to the slot's current occupant. -/
theorem c2_token_is_per_engine (g : Graph2) (k : NodeKey) :
    (g2get g k = none ↔ k.token ≠ g.token) ∧ (g2insert g).2.token = g.token := by
  constructor
  · unfold g2get
    split <;> simp_all
  · unfold g2insert
    cases h : g.freeHead with
    | none => simp
    | some fh =>
      simp only [modifyNode_token]
      cases (aget g fh).next <;> simp [modifyNode_token]

/-- C3: evaluating `dequeue_calc` on the middle node of a three-node bucket.
Node `0`'s `prev` still points at the removed node `1`, its `next` has been
overwritten with the removed node's `prev` (node `2`), and the subsequent
pop-mins yield node `2` twice instead of yielding the two remaining nodes
`2` and `0` once each: the source writes the removed node's `prev` into the
successor's `next` field instead of its `prev` field. -/
theorem c3_dequeue_middle_corrupts_bucket :
    (c3scenario.map fun g =>
      ((aget g 0).prev, (aget g 0).next, popAllG2 5 g)) =
    some (some 1, some 2, [(0, 2), (0, 0), (0, 2)]) := by
  decide

/-- C4 counterexample: after `ensure_height_increases` returns the
cycle-detected error on `c4scenario`, node `0`'s visited flag is still set,
so the flag is not cleared on every return path. -/
theorem c4_visited_left_set_on_cycle :
    (c4scenario.map fun r => (r.1.isOk, (aget r.2 0).visited, (aget r.2 1).visited)) =
    some (false, true, false) := by
  decide

/-- C10: once `Graph2::drop` has cleared the shared `still_alive` flag,
cloning a surviving handle returns an identical handle and leaves the graph
(slot handle-counts included) untouched, and dropping a handle is a no-op
that never frees a slot. -/
theorem c10_handle_ops_noop_after_graph_drop (g : Graph2) (k : NodeKey) :
    handleCloneG2 (graphDropG2 g) k = (graphDropG2 g, k) ∧
    handleDropG2 (graphDropG2 g) k = some (graphDropG2 g) := by
  simp [handleCloneG2, handleDropG2, graphDropG2]

/-- Helper for C4: whenever the height walk returns `Ok`, every node's
visited flag afterwards is exactly what it was before the walk. -/
theorem smhNodesG2_ok_visited (fuel : Nat) :
    ∀ g l minH g', smhNodesG2 fuel g l minH = some (true, g') →
      ∀ m, (aget g' m).visited = (aget g m).visited := by
  induction fuel with
  | zero =>
    intro g l minH g' h m
    cases l with
    | nil =>
      simp only [smhNodesG2, Option.some.injEq, Prod.mk.injEq, true_and] at h
      rw [h]
    | cons n rest => simp [smhNodesG2] at h
  | succ fuel ih =>
    intro g l minH g' h m
    cases l with
    | nil =>
      simp only [smhNodesG2, Option.some.injEq, Prod.mk.injEq, true_and] at h
      rw [h]
    | cons n rest =>
      simp only [smhNodesG2] at h
      split at h
      · exact absurd h (by simp)
      · rename_i ok1 g1 heq1
        split at h
        · exact absurd h (by simp)
        · rename_i ok2 g2 heq2
          simp only [Option.some.injEq, Prod.mk.injEq, Bool.and_eq_true] at h
          obtain ⟨⟨hok1, hok2⟩, hg⟩ := h
          subst hok1 hok2 hg
          have hrest := ih _ _ _ _ heq2 m
          rw [hrest]; clear hrest heq2
          split at heq1
          · simp at heq1
          · rename_i hnv
            split at heq1
            · split at heq1
              · exact absurd heq1 (by simp)
              · rename_i okp g3 heqp
                split at heq1
                · rename_i hokp
                  subst hokp
                  simp only [Option.some.injEq, Prod.mk.injEq, true_and] at heq1
                  subst heq1
                  have hin := ih _ _ _ _ heqp m
                  rw [aget_modifyNode]
                  by_cases hm : m = n
                  · subst hm; simp [Bool.not_eq_true] at hnv; simp [hnv]
                  · rw [if_neg hm, hin, aget_modifyNode, if_neg hm, aget_modifyNode,
                      if_neg hm]
                · simp at heq1
            · simp only [Option.some.injEq, Prod.mk.injEq, true_and] at heq1
              subst heq1
              rw [aget_modifyNode]
              by_cases hm : m = n
              · subst hm; simp [Bool.not_eq_true] at hnv; simp [hnv]
              · rw [if_neg hm, aget_modifyNode, if_neg hm]

/-- C4 (amended): on every *successful* return of `ensure_height_increases`
— `Ok(true)` (already higher) or `Ok(false)` (raised) — every visited flag
is clear again whenever all flags were clear at the call, so a later
unrelated height walk cannot spuriously report a cycle. (The counterexample
above shows the flags are *not* restored on the cycle-detected `Err` path,
which the engine treats as fatal.) -/
theorem c4_ensure_ok_clears_visited (fuel : Nat) (g : Graph2) (c p : Nat)
    (r : Except Unit Bool) (g' : Graph2)
    (h : ensureHeightIncreasesG2 fuel g c p = some (r, g'))
    (hok : r.isOk = true) (hclean : ∀ m, (aget g m).visited = false) :
    ∀ m, (aget g' m).visited = false := by
  intro m
  simp only [ensureHeightIncreasesG2] at h
  split at h
  · simp only [Option.some.injEq, Prod.mk.injEq] at h
    rw [← h.2, hclean]
  · split at h
    · exact absurd h (by simp)
    · rename_i ok g2 hsm
      simp only [Option.some.injEq, Prod.mk.injEq] at h
      obtain ⟨hr, hg'⟩ := h
      cases ok with
      | false =>
        rw [← hr] at hok
        simp only [Bool.false_eq_true, if_false] at hok
        exact absurd hok (by decide)
      | true =>
        have hpres := smhNodesG2_ok_visited fuel _ _ _ _ hsm m
        rw [← hg', aget_modifyNode]
        by_cases hm : m = c
        · simp [hm]
        · rw [if_neg hm, hpres, aget_modifyNode, if_neg hm, hclean]


/-- Two fresh nodes in a fresh graph, used as the input for the C4 witness. -/
def c4wGraph : Graph2 := (g2insert (g2insert (g2new 4 0)).1).1

/-- Witness for the amended C4 theorem: raising between two fresh nodes
succeeds and indeed leaves every visited flag clear. -/
theorem c4_ensure_ok_witness :
    (∀ m, (aget c4wGraph m).visited = false) ∧
    ∀ m, (ensureHeightIncreasesG2 10 c4wGraph 0 1).map
      (fun q => (aget q.2 m).visited) = some false := by
  have hclean : ∀ m, (aget c4wGraph m).visited = false := by
    intro m
    simp only [c4wGraph, g2insert, g2new, aget, modifyNode, aset]
    split_ifs <;> rfl
  refine ⟨hclean, ?_⟩
  intro m
  cases hE : ensureHeightIncreasesG2 10 c4wGraph 0 1 with
  | none =>
    have hs : (ensureHeightIncreasesG2 10 c4wGraph 0 1).isSome = true := by decide
    rw [hE] at hs
    exact absurd hs (by decide)
  | some q =>
    have hok : (ensureHeightIncreasesG2 10 c4wGraph 0 1).map
        (fun q => q.1.isOk) = some true := by decide
    rw [hE] at hok
    simp only [Option.map_some', Option.some.injEq] at hok
    have hres := c4_ensure_ok_clears_visited 10 c4wGraph 0 1 q.1 q.2 hE hok hclean m
    simpa using hres

/-- The operations a parent may perform on its necessary-children set. -/
inductive NCOp where
  | add (p c : Nat)
  | remove (p c : Nat)
  | drain (p : Nat)
deriving DecidableEq, Repr

/-- Dispatch one necessary-children operation. -/
def applyNCOp (g : Graph2) : NCOp → Graph2
  | .add p c => addNecessaryChildG2 g p c
  | .remove p c => removeNecessaryChildG2 g p c
  | .drain p => drainNecessaryChildrenG2 g p

/-- Run a sequence of necessary-children operations. -/
def applyNCOps (g : Graph2) (ops : List NCOp) : Graph2 :=
  ops.foldl applyNCOp g

/-- An operation is valid when its node pointers are live arena slots (in
Rust this holds by construction: `NodeGuard`s only exist for allocated
slots). -/
def ncValid (len : Nat) : NCOp → Prop
  | .add p c => p < len ∧ c < len
  | .remove p c => p < len ∧ c < len
  | .drain p => p < len

instance : ∀ op, Decidable (ncValid len op) := by
  intro op
  cases op <;> simp only [ncValid] <;> infer_instance

/-- The number of arena nodes whose necessary-children set contains `c`. -/
def ncParentCount (g : Graph2) (c : Nat) : Nat :=
  ((Finset.range g.arenaLen).filter (fun p => c ∈ (aget g p).necessaryChildren)).card

/-- The necessary-count invariant: every node's necessary-children list is
sorted in strict pointer order (hence deduplicated), and every node's
`necessary_count` equals the number of nodes listing it. -/
def ncInv (g : Graph2) : Prop :=
  (∀ p < g.arenaLen, ((aget g p).necessaryChildren).Sorted (· < ·)) ∧
  ∀ c < g.arenaLen, (aget g c).necessaryCount = ncParentCount g c

instance (g : Graph2) : Decidable (ncInv g) := by
  unfold ncInv
  infer_instance

/-- Cardinality bookkeeping: flipping a single in-range point of the filter
predicate from false to true grows the count by one. -/
theorem card_filter_flip_true {n p : Nat} {f f' : Nat → Prop}
    [DecidablePred f] [DecidablePred f'] (hp : p < n)
    (hag : ∀ q, q ≠ p → (f' q ↔ f q)) (hfp : ¬ f p) (hfp' : f' p) :
    ((Finset.range n).filter f').card = ((Finset.range n).filter f).card + 1 := by
  have hpm : p ∈ Finset.range n := Finset.mem_range.mpr hp
  have e1 : Finset.range n = insert p ((Finset.range n).erase p) :=
    (Finset.insert_erase hpm).symm
  have hcongr : Finset.filter f' ((Finset.range n).erase p) =
      Finset.filter f ((Finset.range n).erase p) :=
    Finset.filter_congr (fun q hq => hag q (Finset.ne_of_mem_erase hq))
  rw [e1, Finset.filter_insert, Finset.filter_insert, if_pos hfp', if_neg hfp, hcongr,
    Finset.card_insert_of_not_mem]
  intro hmem
  exact absurd (Finset.mem_of_mem_filter p hmem) (Finset.not_mem_erase p _)

/-- Cardinality bookkeeping: a filter over predicates that agree on every
in-range point has the same count. -/
theorem card_filter_flip_none {n : Nat} {f f' : Nat → Prop}
    [DecidablePred f] [DecidablePred f'] (hag : ∀ q, f' q ↔ f q) :
    ((Finset.range n).filter f').card = ((Finset.range n).filter f).card := by
  rw [Finset.filter_congr (fun q _ => hag q)]

/-- Ordered insertion of a fresh element keeps a strictly sorted list
strictly sorted. -/
theorem sorted_lt_orderedInsert {l : List Nat} {c : Nat}
    (hs : l.Sorted (· < ·)) (hc : c ∉ l) :
    (l.orderedInsert (· ≤ ·) c).Sorted (· < ·) := by
  have hle : (l.orderedInsert (· ≤ ·) c).Sorted (· ≤ ·) :=
    (List.Sorted.orderedInsert c l (hs.imp (fun h => le_of_lt h)))
  have hnd : (l.orderedInsert (· ≤ ·) c).Nodup :=
    ((List.perm_orderedInsert (· ≤ ·) c l).nodup_iff).mpr (List.nodup_cons.mpr ⟨hc, hs.nodup⟩)
  exact hle.lt_of_le hnd

/-- `add_necessary_child` preserves the necessary-count invariant. -/
theorem ncInv_add (g : Graph2) (p c : Nat) (hInv : ncInv g)
    (hp : p < g.arenaLen) (hc : c < g.arenaLen) :
    ncInv (addNecessaryChildG2 g p c) := by
  obtain ⟨hsort, hcount⟩ := hInv
  unfold addNecessaryChildG2
  by_cases hmem : c ∈ (aget g p).necessaryChildren
  · rw [if_pos hmem]; exact ⟨hsort, hcount⟩
  · rw [if_neg hmem]
    set g2 := modifyNode
      (modifyNode g p fun n =>
        { n with necessaryChildren := n.necessaryChildren.orderedInsert (· ≤ ·) c })
      c (fun n => { n with necessaryCount := n.necessaryCount + 1 }) with hg2
    have hlen : g2.arenaLen = g.arenaLen := rfl
    have hch : ∀ x, (aget g2 x).necessaryChildren =
        if x = p then (aget g p).necessaryChildren.orderedInsert (· ≤ ·) c
        else (aget g x).necessaryChildren := by
      intro x
      simp only [hg2, aget_modifyNode]
      by_cases hxc : x = c
      · subst hxc
        by_cases hxp : x = p
        · subst hxp; simp
        · simp [hxp]
      · simp only [if_neg hxc]
        by_cases hxp : x = p
        · subst hxp; simp
        · simp [hxp]
    have hcnt : ∀ x, (aget g2 x).necessaryCount =
        if x = c then (aget g x).necessaryCount + 1 else (aget g x).necessaryCount := by
      intro x
      simp only [hg2, aget_modifyNode]
      by_cases hxc : x = c
      · subst hxc
        by_cases hxp : x = p
        · subst hxp; simp
        · simp [hxp]
      · simp only [if_neg hxc]
        by_cases hxp : x = p
        · subst hxp; simp
        · simp [hxp]
    constructor
    · intro q hq
      rw [hch q]
      by_cases hqp : q = p
      · rw [if_pos hqp]
        exact sorted_lt_orderedInsert (hqp ▸ hsort q (hlen ▸ hq)) (hqp ▸ hmem)
      · rw [if_neg hqp]
        exact hsort q (hlen ▸ hq)
    · intro x hx
      rw [hcnt x]
      by_cases hxc : x = c
      · subst hxc
        rw [if_pos rfl, hcount x (hlen ▸ hx)]
        have hstep : ncParentCount g2 x = ncParentCount g x + 1 := by
          unfold ncParentCount
          rw [hlen]
          refine card_filter_flip_true hp (fun q hq => ?_) hmem ?_
          · rw [hch q, if_neg hq]
          · rw [hch p, if_pos rfl]
            exact (List.mem_orderedInsert _).mpr (Or.inl rfl)
        rw [hstep]
      · rw [if_neg hxc, hcount x (hlen ▸ hx)]
        have hstep : ncParentCount g2 x = ncParentCount g x := by
          unfold ncParentCount
          rw [hlen]
          refine card_filter_flip_none (fun q => ?_)
          rw [hch q]
          by_cases hqp : q = p
          · rw [if_pos hqp, List.mem_orderedInsert, hqp]
            simp [hxc]
          · rw [if_neg hqp]
        rw [hstep]

/-- `remove_necessary_child` preserves the necessary-count invariant. -/
theorem ncInv_remove (g : Graph2) (p c : Nat) (hInv : ncInv g)
    (hp : p < g.arenaLen) (hc : c < g.arenaLen) :
    ncInv (removeNecessaryChildG2 g p c) := by
  obtain ⟨hsort, hcount⟩ := hInv
  unfold removeNecessaryChildG2
  by_cases hmem : c ∈ (aget g p).necessaryChildren
  · rw [if_pos hmem]
    set g2 := modifyNode
      (modifyNode g p fun n =>
        { n with necessaryChildren := n.necessaryChildren.erase c })
      c (fun n => { n with necessaryCount := n.necessaryCount - 1 }) with hg2
    have hlen : g2.arenaLen = g.arenaLen := rfl
    have hnd : ((aget g p).necessaryChildren).Nodup := (hsort p hp).nodup
    have hch : ∀ x, (aget g2 x).necessaryChildren =
        if x = p then (aget g p).necessaryChildren.erase c
        else (aget g x).necessaryChildren := by
      intro x
      simp only [hg2, aget_modifyNode]
      by_cases hxc : x = c
      · subst hxc
        by_cases hxp : x = p
        · subst hxp; simp
        · simp [hxp]
      · simp only [if_neg hxc]
        by_cases hxp : x = p
        · subst hxp; simp
        · simp [hxp]
    have hcnt : ∀ x, (aget g2 x).necessaryCount =
        if x = c then (aget g x).necessaryCount - 1 else (aget g x).necessaryCount := by
      intro x
      simp only [hg2, aget_modifyNode]
      by_cases hxc : x = c
      · subst hxc
        by_cases hxp : x = p
        · subst hxp; simp
        · simp [hxp]
      · simp only [if_neg hxc]
        by_cases hxp : x = p
        · subst hxp; simp
        · simp [hxp]
    constructor
    · intro q hq
      rw [hch q]
      by_cases hqp : q = p
      · rw [if_pos hqp]
        exact List.Pairwise.sublist (List.erase_sublist c _) (hsort p hp)
      · rw [if_neg hqp]
        exact hsort q (hlen ▸ hq)
    · intro x hx
      rw [hcnt x]
      by_cases hxc : x = c
      · subst hxc
        rw [if_pos rfl, hcount x (hlen ▸ hx)]
        have hstep : ncParentCount g x = ncParentCount g2 x + 1 := by
          unfold ncParentCount
          rw [hlen]
          refine card_filter_flip_true hp (fun q hq => ?_) ?_ hmem
          · rw [hch q, if_neg hq]
          · rw [hch p, if_pos rfl]
            intro habs
            exact absurd (hnd.mem_erase_iff.mp habs).1 (by simp)
        omega
      · rw [if_neg hxc, hcount x (hlen ▸ hx)]
        have hstep : ncParentCount g2 x = ncParentCount g x := by
          unfold ncParentCount
          rw [hlen]
          refine card_filter_flip_none (fun q => ?_)
          rw [hch q]
          by_cases hqp : q = p
          · rw [if_pos hqp, hnd.mem_erase_iff, hqp]
            simp [hxc]
          · rw [if_neg hqp]
        rw [hstep]
  · rw [if_neg hmem]; exact ⟨hsort, hcount⟩

/-- The decrement pass changes no necessary-children list. -/
theorem decCounts_children (l : List Nat) : ∀ (g : Graph2) (x : Nat),
    (aget (decCounts g l) x).necessaryChildren = (aget g x).necessaryChildren := by
  induction l with
  | nil => intro g x; rfl
  | cons a t ih =>
    intro g x
    show (aget (decCounts (modifyNode g a _) t) x).necessaryChildren = _
    rw [ih]
    rw [aget_modifyNode]
    by_cases hxa : x = a <;> simp [hxa]

/-- The decrement pass keeps the arena length. -/
theorem decCounts_arenaLen (l : List Nat) : ∀ g : Graph2,
    (decCounts g l).arenaLen = g.arenaLen := by
  induction l with
  | nil => intro g; rfl
  | cons a t ih => intro g; exact ih _

/-- The decrement pass subtracts each node's multiplicity in the list from
its necessary-count. -/
theorem decCounts_count (l : List Nat) : ∀ (g : Graph2) (x : Nat),
    (aget (decCounts g l) x).necessaryCount = (aget g x).necessaryCount - l.count x := by
  induction l with
  | nil => intro g x; simp [decCounts]
  | cons a t ih =>
    intro g x
    show (aget (decCounts (modifyNode g a _) t) x).necessaryCount = _
    rw [ih, aget_modifyNode, List.count_cons]
    by_cases hxa : x = a
    · subst hxa; simp; omega
    · simp [hxa, Ne.symm hxa]

/-- `drain_necessary_children` preserves the necessary-count invariant. -/
theorem ncInv_drain (g : Graph2) (p : Nat) (hInv : ncInv g) (hp : p < g.arenaLen) :
    ncInv (drainNecessaryChildrenG2 g p) := by
  obtain ⟨hsort, hcount⟩ := hInv
  unfold drainNecessaryChildrenG2
  set l := (aget g p).necessaryChildren with hl
  set g2 := modifyNode (decCounts g l) p (fun n => { n with necessaryChildren := [] }) with hg2
  have hnd : l.Nodup := (hsort p hp).nodup
  have hlen : g2.arenaLen = g.arenaLen := by
    simp only [hg2, modifyNode, aset]
    exact decCounts_arenaLen l g
  have hch : ∀ x, (aget g2 x).necessaryChildren =
      if x = p then [] else (aget g x).necessaryChildren := by
    intro x
    simp only [hg2, aget_modifyNode]
    by_cases hxp : x = p
    · simp [hxp]
    · simp [hxp, decCounts_children]
  have hcnt : ∀ x, (aget g2 x).necessaryCount = (aget g x).necessaryCount - l.count x := by
    intro x
    simp only [hg2, aget_modifyNode]
    by_cases hxp : x = p
    · simp [hxp, decCounts_count]
    · simp [hxp, decCounts_count]
  constructor
  · intro q hq
    rw [hch q]
    by_cases hqp : q = p
    · simp [hqp]
    · rw [if_neg hqp]
      exact hsort q (hlen ▸ hq)
  · intro x hx
    rw [hcnt x, hcount x (hlen ▸ hx)]
    by_cases hxl : x ∈ l
    · have hcnt1 : l.count x = 1 := List.count_eq_one_of_mem hnd hxl
      have hstep : ncParentCount g x = ncParentCount g2 x + 1 := by
        unfold ncParentCount
        rw [hlen]
        refine card_filter_flip_true hp (fun q hq => ?_) ?_ (hl ▸ hxl)
        · rw [hch q, if_neg hq]
        · rw [hch p, if_pos rfl]
          simp
      omega
    · have hcnt0 : l.count x = 0 := List.count_eq_zero.mpr hxl
      have hstep : ncParentCount g2 x = ncParentCount g x := by
        unfold ncParentCount
        rw [hlen]
        refine card_filter_flip_none (fun q => ?_)
        rw [hch q]
        by_cases hqp : q = p
        · subst hqp
          simp only [if_pos, List.not_mem_nil, false_iff]
          rw [← hl]
          exact hxl
        · rw [if_neg hqp]
      omega

/-- Each operation keeps the arena length. -/
theorem applyNCOp_arenaLen (g : Graph2) (op : NCOp) :
    (applyNCOp g op).arenaLen = g.arenaLen := by
  cases op with
  | add p c =>
    simp only [applyNCOp, addNecessaryChildG2]
    split <;> rfl
  | remove p c =>
    simp only [applyNCOp, removeNecessaryChildG2]
    split <;> rfl
  | drain p =>
    simp only [applyNCOp, drainNecessaryChildrenG2, modifyNode, aset]
    exact decCounts_arenaLen _ g

/-- C8: from any state satisfying the necessary-count invariant, every
sequence of `add_necessary_child`, `remove_necessary_child`, and
`drain_necessary_children` operations on live slots preserves it: each
node's `necessary_count` always equals the number of nodes whose sorted,
deduplicated necessary-children set contains it. -/
theorem c8_necessary_count_invariant (ops : List NCOp) : ∀ g : Graph2,
    ncInv g → (∀ op ∈ ops, ncValid g.arenaLen op) → ncInv (applyNCOps g ops) := by
  induction ops with
  | nil => intro g hInv _; exact hInv
  | cons op t ih =>
    intro g hInv hv
    show ncInv (applyNCOps (applyNCOp g op) t)
    refine ih _ ?_ ?_
    · cases op with
      | add p c =>
        have hvo : p < g.arenaLen ∧ c < g.arenaLen := hv (.add p c) (by simp)
        exact ncInv_add g p c hInv hvo.1 hvo.2
      | remove p c =>
        have hvo : p < g.arenaLen ∧ c < g.arenaLen := hv (.remove p c) (by simp)
        exact ncInv_remove g p c hInv hvo.1 hvo.2
      | drain p =>
        have hvo : p < g.arenaLen := hv (.drain p) (by simp)
        exact ncInv_drain g p hInv hvo
    · intro o ho
      rw [applyNCOp_arenaLen]
      exact hv o (List.mem_cons_of_mem _ ho)

/-- Witness for C8: two fresh nodes, a redundant add, a cross add, a remove
of an absent child, and a drain, all preserving the invariant. -/
theorem c8_necessary_count_invariant_witness :
    ncInv ((g2insert (g2insert (g2new 4 0)).1).1) ∧
    ncInv (applyNCOps ((g2insert (g2insert (g2new 4 0)).1).1)
      [.add 0 1, .add 0 1, .add 1 0, .remove 1 1, .drain 0]) := by
  refine ⟨by decide, c8_necessary_count_invariant _ _ (by decide) ?_⟩
  intro op hop
  fin_cases hop <;> decide

/-!
Part 2: the `src/singlethread.rs` engine revision over `MetadataGraph`
(src/graph.rs), `FakeHeap` (src/fakeheap.rs) and `NodeQueue`
(src/nodequeue.rs), with the node behaviours of `src/var.rs` and the
one-anchor instance of `src/ext/then.rs`, plus a scripted behaviour standing
for an arbitrary user `AnchorInner`. Handle reference counting and
`garbage_collect` are not modelled: no handle is dropped in any run below.
`Generation` is a counter starting at 1. Slotmap keys are embedded as `Nat`.
-/

/-- The `Poll` enum of lib.rs. -/
inductive PollR where
  | Updated
  | Unchanged
  | Pending
deriving DecidableEq, Repr

/-- The `NodeState` enum of nodequeue.rs. -/
inductive QState where
  | NeedsRecalc
  | PendingRecalc
  | Ready
deriving DecidableEq, Repr

/-- The `EdgeState` enum of graph.rs. -/
inductive EdgeState where
  | Necessary
  | Dirty
  | Clean
deriving DecidableEq, Repr

/-- The `ObservedState` enum of singlethread.rs. -/
inductive ObsState where
  | Observed
  | Necessary
  | Unnecessary
deriving DecidableEq, Repr

/-- A `MetadataGraph` node (graph.rs `Node<T>`): `parents` are the nodes
updated when this node changes, keyed with the necessary flag, sorted by id
and deduplicated; `children` are the reverse edges. Defaults match
`Default::default()`. -/
structure MGNode where
  parents : List (Nat × Bool) := []
  children : List Nat := []
  height : Nat := 0
  visited : Bool := false
  dirty : Bool := true
deriving DecidableEq, Repr

instance : Inhabited MGNode := ⟨{}⟩

/-- `MetadataGraph` as a total map: graph.rs reads absent nodes through
`unwrap_or` defaults that coincide with `Node::default()`, and
`get_mut_or_default` inserts that same default before writing. -/
def MG : Type := Nat → MGNode

/-- Read a graph node. -/
def mgGet (g : MG) (i : Nat) : MGNode := g i

/-- Write a graph node. -/
def mgSet (g : MG) (i : Nat) (nd : MGNode) : MG :=
  fun j => if j = i then nd else g j

/-- The graph with no recorded metadata (`MetadataGraph::new`). -/
def mgEmpty : MG := fun _ => {}

/-- `MetadataGraph::height`. -/
def heightMG (g : MG) (i : Nat) : Nat := (mgGet g i).height

/-- `MetadataGraph::edge`: the `binary_search_by_key` over the id-sorted
parents list is embedded as a first-match lookup (they agree on sorted,
deduplicated lists). -/
def edgeMG (g : MG) (fr tn : Nat) : EdgeState :=
  match (mgGet g fr).parents.find? (fun q => q.1 = tn) with
  | none => .Dirty
  | some (_, true) => .Necessary
  | some (_, false) => .Clean

/-- The necessary parents of a node (`get_parents` with `necessary = true`). -/
def necessaryParentsMG (g : MG) (i : Nat) : List Nat :=
  ((mgGet g i).parents.filter (fun q => q.2)).map (fun q => q.1)

/-- `MetadataGraph::is_necessary`. -/
def isNecessaryMG (g : MG) (i : Nat) : Bool :=
  decide (necessaryParentsMG g i ≠ [])

/-- The clean parents of a node (`get_parents` with `necessary = false`). -/
def cleanParentsMG (g : MG) (i : Nat) : List Nat :=
  ((mgGet g i).parents.filter (fun q => !q.2)).map (fun q => q.1)

/-- Insert-or-update into the id-sorted parents list, as the
`binary_search_by_key` + `insert`/assign of graph.rs `set_edge` does. -/
def upsertParent : List (Nat × Bool) → Nat → Bool → List (Nat × Bool)
  | [], tn, nec => [(tn, nec)]
  | (k, b) :: rest, tn, nec =>
    if tn = k then (k, nec) :: rest
    else if tn < k then (tn, nec) :: (k, b) :: rest
    else (k, b) :: upsertParent rest tn nec

/-- Insert into the sorted, deduplicated children list. -/
def insertSortedNat : List Nat → Nat → List Nat
  | [], fr => [fr]
  | k :: rest, fr =>
    if fr = k then k :: rest
    else if fr < k then fr :: k :: rest
    else k :: insertSortedNat rest fr

/-- graph.rs `set_min_height`, with the `for (child, _) in
node.parents.clone()` loop folded into the recursion (the list argument is
the worklist at the current target height). Unlike the graph2.rs variant,
the loop returns the *first* error immediately; as in the source, the
visited flag of a node is cleared only after its whole parent loop
succeeded, so error returns leave flags set. Fuel is consumed per processed
node. -/
def smhNodesMG : Nat → MG → List Nat → Nat → Option (Except Unit MG)
  | _, g, [], _ => some (.ok g)
  | 0, _, _ :: _, _ => none
  | fuel + 1, g, n :: rest, minH =>
    let nd := mgGet g n
    if nd.visited then some (.error ())
    else
      let g := mgSet g n { nd with visited := true }
      if nd.height < minH then
        let g := mgSet g n { mgGet g n with height := minH }
        match smhNodesMG fuel g ((mgGet g n).parents.map (fun q => q.1)) (minH + 1) with
        | none => none
        | some (.error e) => some (.error e)
        | some (.ok g) =>
          let g := mgSet g n { mgGet g n with visited := false }
          smhNodesMG fuel g rest minH
      else
        let g := mgSet g n { mgGet g n with visited := false }
        smhNodesMG fuel g rest minH

/-- `MetadataGraph::set_min_height`. -/
def setMinHeightMG (fuel : Nat) (g : MG) (n minH : Nat) : Option (Except Unit MG) :=
  smhNodesMG fuel g [n] minH

/-- The `EdgeState::Dirty` arm of graph.rs `set_edge`: mark the target
dirty, drop `to` from `from`'s parents and `from` from `to`'s children. -/
def setEdgeDirtyMG (g : MG) (fr tn : Nat) : MG :=
  let g := mgSet g tn { mgGet g tn with dirty := true }
  let g := mgSet g fr
    { mgGet g fr with parents := (mgGet g fr).parents.eraseP (fun q => q.1 = tn) }
  mgSet g tn { mgGet g tn with children := (mgGet g tn).children.erase fr }

/-- The Clean/Necessary arm of graph.rs `set_edge` (with `is_necessary`
already computed): record the edge on both sides, then raise the parent
above the child. -/
def setEdgeLiveMG (fuel : Nat) (g : MG) (fr tn : Nat) (isNec : Bool) :
    Option (Except Unit MG) :=
  let g := mgSet g fr
    { mgGet g fr with parents := upsertParent (mgGet g fr).parents tn isNec }
  let g := mgSet g tn
    { mgGet g tn with children := insertSortedNat (mgGet g tn).children fr }
  setMinHeightMG fuel g tn (heightMG g fr + 1)

/-- graph.rs `set_edge`. -/
def setEdgeMG (fuel : Nat) (g : MG) (fr tn : Nat) (st : EdgeState) :
    Option (Except Unit MG) :=
  match st with
  | .Dirty => some (.ok (setEdgeDirtyMG g fr tn))
  | _ => setEdgeLiveMG fuel g fr tn (decide (st = EdgeState.Necessary))

/-- Modelled from the spec: `MetadataGraph::set_edge_clean(from, to,
necessary)`, called by singlethread.rs but absent from src/ (only
graph.rs's `set_edge` survives there). Per §4.3/§4.4 it records the edge —
necessary when the flag is set, clean otherwise — and raises the parent, so
it is `set_edge` with the corresponding state; the engine converts the
cycle error into a panic (`none`). -/
def setEdgeCleanMG (fuel : Nat) (g : MG) (fr tn : Nat) (nec : Bool) : Option MG :=
  match setEdgeMG fuel g fr tn (if nec then .Necessary else .Clean) with
  | some (.ok g) => some g
  | _ => none

/-- Modelled from the spec: `MetadataGraph::set_edge_dirty(from, to)`,
called by singlethread.rs but absent from src/. Per §4.3 it drops the
recorded edge; it is `set_edge` with `EdgeState::Dirty`. -/
def unrequestEdgeMG (g : MG) (fr tn : Nat) : MG := setEdgeDirtyMG g fr tn

/-- Modelled from the spec: `MetadataGraph::ensure_height_increases(child,
parent)`, called by singlethread.rs but absent from src/. Per §4.3 it
returns at once when the child is already lower and otherwise runs
`set_min_height(parent, height(child) + 1)`; the engine panics on the cycle
error (`none`). -/
def ensureHeightIncreasesMG (fuel : Nat) (g : MG) (child parent : Nat) : Option MG :=
  if heightMG g child < heightMG g parent then some g
  else
    match setMinHeightMG fuel g parent (heightMG g child + 1) with
    | some (.ok g) => some g
    | _ => none

/-- Modelled from the spec: `MetadataGraph::empty_clean_parents(node)`,
called by singlethread.rs but absent from src/. Per §4.3/§4.6 it yields
every recorded reader of `node` (every entry of the parents list — the
necessary flag only additionally marks the necessary-child edge) and
empties the set, dropping each edge as `set_edge` does with `Dirty`. -/
def emptyCleanParentsMG (g : MG) (i : Nat) : List Nat × MG :=
  let ps := (mgGet g i).parents.map (fun q => q.1)
  (ps, ps.foldl (fun g p => setEdgeDirtyMG g i p) g)

/-- The `FakeHeap` of fakeheap.rs. Buckets are stacks: Rust pushes and pops
at the vector's end, embedded here as the list head. `counts` embeds
`contained_keys`. -/
structure FH where
  minHeight : Nat
  lists : List (List Nat)
  counts : Nat → Nat

/-- `FakeHeap::new(max_height)`. -/
def fhNew (maxH : Nat) : FH where
  minHeight := maxH
  lists := List.replicate maxH []
  counts := fun _ => 0

/-- `FakeHeap::insert`: panic (`none`) at or above capacity, otherwise push
onto the bucket and lower `min_height`. -/
def fhInsert (fh : FH) (h item : Nat) : Option FH :=
  if h ≥ fh.lists.length then none
  else some
    { minHeight := min fh.minHeight h,
      lists := fh.lists.set h (item :: fh.lists.getD h []),
      counts := fun j => if j = item then fh.counts j + 1 else fh.counts j }

/-- The `while` loop of `FakeHeap::pop_min`: `gas` bounds the bucket scan
(each iteration advances `min_height`, so `lists.length + 1` always
suffices). -/
def fhPopAux : Nat → FH → Option (Nat × Nat) × FH
  | 0, fh => (none, fh)
  | gas + 1, fh =>
    if fh.minHeight < fh.lists.length then
      match fh.lists.getD fh.minHeight [] with
      | v :: rest =>
        (some (fh.minHeight, v),
         { fh with lists := fh.lists.set fh.minHeight rest,
                   counts := fun j => if j = v then fh.counts j - 1 else fh.counts j })
      | [] => fhPopAux gas { fh with minHeight := fh.minHeight + 1 }
    else (none, fh)

/-- `FakeHeap::pop_min`. -/
def fhPopMin (fh : FH) : Option (Nat × Nat) × FH :=
  fhPopAux (fh.lists.length + 1) fh

/-- The state of a `Var` node (var.rs): whether the shared cell already
holds a dirty handle, the pending `VarInner::val`, and the cached
`my_val`. -/
structure VarSt where
  registered : Bool := false
  pendingVal : Option Nat := none
  myVal : Nat := 0
deriving DecidableEq, Repr

/-- A node behaviour: `Var` (var.rs), the one-anchor `Then` (then.rs, with
`f` mapping the lhs value to the chosen downstream node), or a scripted
behaviour standing for an arbitrary user `AnchorInner` (on its `idx`-th
poll it performs the scripted `(child, necessary)` requests in order and
returns the scripted poll result; its output is the fixed `outVal`). -/
inductive Beh where
  | var (v : VarSt)
  | then1 (lhs : Nat) (f : Nat → Nat) (fAnchor : Option Nat) (lhsStale : Bool)
  | script (polls : List (List (Nat × Bool) × PollR)) (idx : Nat) (outVal : Nat)

/-- A singlethread `Node`: observed flag, the two generations, and the
inner behaviour. -/
structure STNode where
  observed : Bool := false
  lastReady : Option Nat := none
  lastUpdate : Option Nat := none
  beh : Beh

/-- The singlethread `Engine`: nodes, metadata graph, recalc queue
(`NodeQueue` = heap + per-node states, absent states reading as
`NeedsRecalc`), buffered dirty marks, and the generation counter. `polls`
logs the bucket height of every `poll_updated` invocation (most recent
first), and `pendingFlag` is the `pending_on_anchor_get` of the
`EngineContextMut` of the innermost running recalculation. -/
structure Eng where
  nodes : Nat → STNode
  graph : MG
  qstates : Nat → QState
  heap : FH
  dirtyMarks : List Nat
  generation : Nat
  polls : List Nat
  pendingFlag : Bool

/-- Read a node. -/
def nget (s : Eng) (i : Nat) : STNode := s.nodes i

/-- Replace a node's behaviour. -/
def setBeh (s : Eng) (i : Nat) (b : Beh) : Eng :=
  { s with nodes := fun j => if j = i then { s.nodes i with beh := b } else s.nodes j }

/-- `NodeQueue::state`. -/
def qstate (s : Eng) (i : Nat) : QState := s.qstates i

/-- `NodeQueue::queue_recalc`: set the state to PendingRecalc and, unless it
already was, push onto the heap (panicking above capacity). -/
def queueRecalcST (s : Eng) (h n : Nat) : Option Eng :=
  let old := s.qstates n
  let s := { s with qstates := fun j => if j = n then .PendingRecalc else s.qstates j }
  if old = .PendingRecalc then some s
  else
    match fhInsert s.heap h n with
    | none => none
    | some fh => some { s with heap := fh }

/-- `NodeQueue::pop_next`: pop the heap and mark the popped node Ready. -/
def popNextST (s : Eng) : Option (Nat × Nat) × Eng :=
  match fhPopMin s.heap with
  | (none, fh) => (none, { s with heap := fh })
  | (some (h, n), fh) =>
    (some (h, n),
     { s with heap := fh, qstates := fun j => if j = n then .Ready else s.qstates j })

/-- `NodeQueue::needs_recalc`: panic unless the node is Ready. -/
def needsRecalcST (s : Eng) (n : Nat) : Option Eng :=
  if s.qstates n ≠ .Ready then none
  else some { s with qstates := fun j => if j = n then .NeedsRecalc else s.qstates j }

/-- `Engine::check_observed`. -/
def checkObservedST (s : Eng) (n : Nat) : ObsState :=
  if (nget s n).observed then .Observed
  else if isNecessaryMG s.graph n then .Necessary
  else .Unnecessary

/-- `Engine::mark_node_for_recalculation`. -/
def markNodeForRecalcST (s : Eng) (n : Nat) : Option Eng :=
  if qstate s n ≠ .PendingRecalc then queueRecalcST s (heightMG s.graph n) n
  else some s

/-- The strict order on `Option<Generation>` derived in Rust: `None` is
below every `Some`. -/
def genLt : Option Nat → Option Nat → Bool
  | none, none => false
  | none, some _ => true
  | some _, none => false
  | some a, some b => decide (a < b)

/-- `EngineContextMut::request` (singlethread.rs): compute
`height_increases` and `self_is_necessary` first, raise the child's parent
when needed, then (1) child not Ready: set the pending flag, enqueue the
child, record the necessary edge when both flags hold, Pending; (2) child
Ready but height not yet increased: pending flag, Pending; (3) otherwise
re-record a dropped edge and compare `child.last_update >
self.last_ready`. -/
def requestST (fuel : Nat) (s : Eng) (caller child : Nat) (necessary : Bool) :
    Option (PollR × Eng) :=
  let heightIncreases := decide (heightMG s.graph child < heightMG s.graph caller)
  let selfNecessary := decide (checkObservedST s caller ≠ .Unnecessary)
  let afterRaise : Option Eng :=
    if !heightIncreases then
      match ensureHeightIncreasesMG fuel s.graph child caller with
      | none => none
      | some g => some { s with graph := g }
    else some s
  match afterRaise with
  | none => none
  | some s =>
    if qstate s child ≠ .Ready then
      let s := { s with pendingFlag := true }
      match markNodeForRecalcST s child with
      | none => none
      | some s =>
        if necessary && selfNecessary then
          match setEdgeCleanMG fuel s.graph child caller true with
          | none => none
          | some g => some (.Pending, { s with graph := g })
        else some (.Pending, s)
    else if !heightIncreases then
      some (.Pending, { s with pendingFlag := true })
    else
      let next : Option Eng :=
        if edgeMG s.graph child caller = .Dirty then
          match setEdgeCleanMG fuel s.graph child caller (necessary && selfNecessary) with
          | none => none
          | some g => some { s with graph := g }
        else some s
      match next with
      | none => none
      | some s =>
        if genLt (nget s caller).lastReady (nget s child).lastUpdate then
          some (.Updated, s)
        else some (.Unchanged, s)

/-- `EngineContextMut::unrequest`: drop the edge — and nothing else; the
source carries a `TODO SHOULD RECURSE` here. -/
def unrequestST (s : Eng) (caller child : Nat) : Eng :=
  { s with graph := unrequestEdgeMG s.graph child caller }

/-- A node's `output`, read through `EngineContext`: a `Var` yields
`my_val`, a scripted node its fixed value, and a `Then` forwards the output
of its selected anchor after the context's Ready check (`get` panics on a
node that is not Ready). -/
def outputOfST : Nat → (Nat → STNode) → (Nat → QState) → Nat → Option Nat
  | fuel, nds, qs, n =>
    match (nds n).beh with
    | .var v => some v.myVal
    | .script _ _ outV => some outV
    | .then1 _ _ fA _ =>
      match fA, fuel with
      | none, _ => none
      | some _, 0 => none
      | some a, fuel + 1 =>
        if qs a ≠ .Ready then none else outputOfST fuel nds qs a

/-- `UpdateContext::get`: panic unless the anchor is Ready, then read its
output. -/
def ctxGetST (fuel : Nat) (s : Eng) (n : Nat) : Option Nat :=
  if qstate s n ≠ .Ready then none else outputOfST fuel s.nodes s.qstates n

/-- The `dirty` hook of each behaviour: `Var::dirty` panics, `Then::dirty`
sets `lhs_stale` when the changed child is the lhs anchor, and the scripted
behaviour ignores the call. -/
def behDirty : Beh → Nat → Option Beh
  | .var _, _ => none
  | .then1 lhs f fA st, child =>
    some (if child = lhs then .then1 lhs f fA true else .then1 lhs f fA st)
  | .script p i o, _ => some (.script p i o)

/-- Run a scripted poll's request list in order. -/
def runReqsST (fuel : Nat) (s : Eng) (caller : Nat) :
    List (Nat × Bool) → Option (Eng × List PollR)
  | [] => some (s, [])
  | (c, nec) :: rest =>
    match requestST fuel s caller c nec with
    | none => none
    | some (r, s1) =>
      match runReqsST fuel s1 caller rest with
      | none => none
      | some (s2, rs) => some (s2, r :: rs)

/-- `poll_updated` of the three behaviours. `Var` (var.rs): first poll
registers the dirty handle and reports Updated, a pending set value is
taken as Updated, otherwise Unchanged. `Then` (then.rs, one anchor): when
unevaluated or stale, request the lhs (Pending propagates), recompute the
selected anchor when the lhs updated, unrequest a previously selected
anchor that differs, then request the selection. Scripted: run the request
list, return the scripted result. -/
def pollBehST (fuel : Nat) (s : Eng) (n : Nat) : Option (PollR × Eng) :=
  match (nget s n).beh with
  | .var v =>
    let firstUpdate := !v.registered
    match v.pendingVal with
    | some newVal =>
      some (.Updated, setBeh s n (.var { registered := true, pendingVal := none, myVal := newVal }))
    | none =>
      let s := setBeh s n (.var { v with registered := true })
      if firstUpdate then some (.Updated, s) else some (.Unchanged, s)
  | .script polls idx outV =>
    match polls.get? idx with
    | none => none
    | some (reqs, ret) =>
      match runReqsST fuel s n reqs with
      | none => none
      | some (s1, _) => some (ret, setBeh s1 n (.script polls (idx + 1) outV))
  | .then1 lhs f fA stale =>
    if fA = none ∨ stale then
      match requestST fuel s n lhs true with
      | none => none
      | some (.Pending, s1) => some (.Pending, s1)
      | some (r, s1) =>
        let recompute : Option (Option Nat × Eng) :=
          if fA = none ∨ r = .Updated then
            match ctxGetST fuel s1 lhs with
            | none => none
            | some v =>
              let newA := f v
              let s2 :=
                match fA with
                | some old => if old ≠ newA then unrequestST s1 n old else s1
                | none => s1
              some (some newA, s2)
          else some (fA, s1)
        match recompute with
        | none => none
        | some (fA', s3) =>
          let s4 := setBeh s3 n (.then1 lhs f fA' false)
          match fA' with
          | none => none
          | some a => requestST fuel s4 n a true
    else
      match fA with
      | none => none
      | some a => requestST fuel s n a true

/-- Call the `dirty` hook of each listed parent with the changed child. -/
def dirtyHooksST (s : Eng) (child : Nat) : List Nat → Option Eng
  | [] => some s
  | p :: rest =>
    match behDirty (nget s p).beh child with
    | none => none
    | some b => dirtyHooksST (setBeh s p b) child rest

/-- The `while let Some(next) = self.queue.pop()` loop of
`Engine::mark_dirty`; the queue is a stack (list head = top). -/
def markDirtyLoopST : Nat → Eng → List Nat → Option Eng
  | _, s, [] => some s
  | 0, _, _ :: _ => none
  | fuel + 1, s, next :: queue =>
    if isNecessaryMG s.graph next || (nget s next).observed then
      match markNodeForRecalcST s next with
      | none => none
      | some s1 => markDirtyLoopST fuel s1 queue
    else if qstate s next = .Ready then
      match needsRecalcST s next with
      | none => none
      | some s1 =>
        let pg := emptyCleanParentsMG s1.graph next
        let s2 := { s1 with graph := pg.2 }
        match dirtyHooksST s2 next pg.1 with
        | none => none
        | some s3 => markDirtyLoopST fuel s3 (pg.1.reverse ++ queue)
    else markDirtyLoopST fuel s queue

/-- `Engine::mark_dirty(node, skip_self)`. -/
def markDirtyST (fuel : Nat) (s : Eng) (node : Nat) (skip : Bool) : Option Eng :=
  if skip then
    let pg := emptyCleanParentsMG s.graph node
    let s1 := { s with graph := pg.2 }
    match dirtyHooksST s1 node pg.1 with
    | none => none
    | some s2 => markDirtyLoopST fuel s2 pg.1.reverse
  else markDirtyLoopST fuel s [node]

/-- Write a node's `last_ready` (and optionally `last_update`). -/
def setGensST (s : Eng) (n : Nat) (lu lr : Option (Option Nat)) : Eng :=
  { s with nodes := fun j => if j = n then
      { s.nodes j with
        lastUpdate := lu.getD (s.nodes j).lastUpdate,
        lastReady := lr.getD (s.nodes j).lastReady }
    else s.nodes j }

/-- `Engine::recalculate`: reset the context's pending flag, poll, then —
Pending with the flag set re-enqueues (returns `false`), Pending without it
panics, Updated floods the dirty wave before stamping both generations,
Unchanged stamps `last_ready`. -/
def recalculateST (fuel : Nat) (s : Eng) (n : Nat) : Option (Bool × Eng) :=
  let s := { s with pendingFlag := false }
  match pollBehST fuel s n with
  | none => none
  | some (.Pending, s1) => if s1.pendingFlag then some (false, s1) else none
  | some (.Updated, s1) =>
    match markDirtyST fuel s1 n true with
    | none => none
    | some s2 =>
      some (true, setGensST s2 n (some (some s2.generation)) (some (some s2.generation)))
  | some (.Unchanged, s1) =>
    some (true, setGensST s1 n none (some (some s1.generation)))

/-- The body of one `stabilize0` iteration after a successful pop at the
node's current height: recalculate and, when incomplete, re-enqueue at the
(possibly raised) current height. -/
def recalcAndRequeueST (fuel : Nat) (s : Eng) (n : Nat) : Option Eng :=
  match recalculateST fuel s n with
  | none => none
  | some (true, s1) => some s1
  | some (false, s1) => queueRecalcST s1 (heightMG s1.graph n) n

/-- `Engine::stabilize0`: pop until the queue is empty; a pop at a stale
height is re-enqueued at the current height without polling, otherwise the
poll's bucket height is logged and the node recalculated.
(`garbage_collect` is a no-op here: no handles are dropped.) -/
def stabilize0ST : Nat → Eng → Option Eng
  | 0, _ => none
  | fuel + 1, s =>
    match popNextST s with
    | (none, s') => some s'
    | (some (h, n), s1) =>
      if h = heightMG s1.graph n then
        match recalcAndRequeueST fuel { s1 with polls := h :: s1.polls } n with
        | none => none
        | some s2 => stabilize0ST fuel s2
      else
        match queueRecalcST s1 (heightMG s1.graph n) n with
        | none => none
        | some s2 => stabilize0ST fuel s2

/-- The drain loop of `Engine::update_dirty_marks`. -/
def markListST (fuel : Nat) : Eng → List Nat → Option Eng
  | s, [] => some s
  | s, m :: rest =>
    match markDirtyST fuel s m false with
    | none => none
    | some s1 => markListST fuel s1 rest

/-- `Engine::update_dirty_marks`. -/
def updateDirtyMarksST (fuel : Nat) (s : Eng) : Option Eng :=
  markListST fuel { s with dirtyMarks := [] } s.dirtyMarks

/-- `Engine::stabilize`: drain dirty marks, increment the generation, run
the queue. -/
def stabilizeST (fuel : Nat) (s : Eng) : Option Eng :=
  match updateDirtyMarksST fuel s with
  | none => none
  | some s1 => stabilize0ST fuel { s1 with generation := s1.generation + 1 }

/-- `Engine::get`: stabilize; if the target is still not Ready, enqueue it
at its height and run `stabilize0` (no generation bump); then read the
output. -/
def getRunST (fuel : Nat) (s : Eng) (n : Nat) : Option (Nat × Eng) :=
  match stabilizeST fuel s with
  | none => none
  | some s1 =>
    let after : Option Eng :=
      if qstate s1 n ≠ .Ready then
        match queueRecalcST s1 (heightMG s1.graph n) n with
        | none => none
        | some s' => stabilize0ST fuel s'
      else some s1
    match after with
    | none => none
    | some s2 =>
      match outputOfST fuel s2.nodes s2.qstates n with
      | none => none
      | some v => some (v, s2)

/-- `VarSetter::set`: store the pending value and, when a dirty handle was
registered, push a dirty mark (appended, as `Vec::push` does). -/
def varSetST (s : Eng) (n val : Nat) : Option Eng :=
  match (nget s n).beh with
  | .var v =>
    let s1 := setBeh s n (.var { v with pendingVal := some val })
    if v.registered then some { s1 with dirtyMarks := s1.dirtyMarks ++ [n] } else some s1
  | _ => none

/-- C5 scenario: node 2 (P) holds a necessary-child edge to node 1 (C), and
C holds one to node 0 (D); all recorded through `set_edge` as
`request(_, true)` does. Nothing is observed. -/
def c5graph : MG :=
  (match setEdgeMG 10 mgEmpty 1 2 .Necessary with
   | some (.ok g) =>
     match setEdgeMG 10 g 0 1 .Necessary with
     | some (.ok g') => some g'
     | _ => none
   | _ => none).getD mgEmpty

/-- The engine wrapped around `c5graph`; behaviours are immaterial to
`unrequest`. -/
def c5eng : Eng where
  nodes := fun _ => { beh := .var {} }
  graph := c5graph
  qstates := fun _ => .NeedsRecalc
  heap := fhNew 4
  dirtyMarks := []
  generation := 1
  polls := []
  pendingFlag := false

/-- C5: `unrequest` drops only the one edge. Before the call both C (node 1)
and D (node 0) are necessary; after P unrequests C, C's necessary-count has
reached zero while C is unobserved, yet D is *still* necessary: the release
does not propagate through C's necessary-children (the source marks the
spot `TODO SHOULD RECURSE`). -/
theorem c5_unrequest_does_not_recurse :
    isNecessaryMG c5eng.graph 1 = true ∧ isNecessaryMG c5eng.graph 0 = true ∧
    checkObservedST c5eng 1 = ObsState.Necessary ∧
    isNecessaryMG (unrequestST c5eng 2 1).graph 1 = false ∧
    isNecessaryMG (unrequestST c5eng 2 1).graph 0 = true := by
  decide

/-- C6 counterexample input: U = node 0 (a variable), F = node 1 (a
variable), N = node 2, a `then` on U selecting node 3 when U's value is
below 100 and F otherwise. -/
def c6eng : Eng where
  nodes := fun n =>
    if n = 0 then { beh := .var { myVal := 999 } }
    else if n = 1 then { beh := .var { myVal := 55 } }
    else if n = 2 then { beh := .then1 0 (fun v => if v < 100 then 3 else 1) none false }
    else { beh := .var { myVal := 7 } }
  graph := mgEmpty
  qstates := fun _ => .NeedsRecalc
  heap := fhNew 8
  dirtyMarks := []
  generation := 1
  polls := []
  pendingFlag := false

/-- Whether a list of heights never decreases from one entry to the next. -/
def nonDecreasing : List Nat → Bool
  | [] => true
  | [_] => true
  | a :: b :: t => decide (a ≤ b) && nonDecreasing (b :: t)

/-- C6 counterexample: during the single stabilize performed by
`get(N)`, the scheduler polls at bucket heights 0, 0, 1, 0, 1 — the
`then` node's poll at height 1 requests the not-yet-calculated branch F,
enqueueing it at height 0, so the next poll happens at height 0. The
sequence of poll heights within one stabilize therefore *does* decrease. -/
theorem c6_poll_heights_decrease :
    (getRunST 30 c6eng 2).map (fun p => (p.1, p.2.polls.reverse)) =
      some (55, [0, 0, 1, 0, 1]) ∧
    nonDecreasing [0, 0, 1, 0, 1] = false := by
  exact ⟨by decide, by decide⟩

/-- Helper for the amended C6: a successful pop reports exactly the
resulting `min_height`, which never sank below the starting one. -/
theorem fhPopAux_some (gas : Nat) : ∀ fh h x,
    (fhPopAux gas fh).1 = some (h, x) →
    fh.minHeight ≤ h ∧ (fhPopAux gas fh).2.minHeight = h := by
  induction gas with
  | zero => intro fh h x hp; simp [fhPopAux] at hp
  | succ gas ih =>
    intro fh h x hp
    rw [fhPopAux] at hp ⊢
    by_cases hlt : fh.minHeight < fh.lists.length
    · rw [if_pos hlt] at hp ⊢
      cases hl : fh.lists.getD fh.minHeight [] with
      | cons v rest =>
        simp only [hl] at hp ⊢
        simp only [Option.some.injEq, Prod.mk.injEq] at hp
        exact ⟨le_of_eq hp.1, hp.1⟩
      | nil =>
        simp only [hl] at hp ⊢
        have := ih _ _ _ hp
        exact ⟨le_trans (Nat.le_succ _) this.1, this.2⟩
    · rw [if_neg hlt] at hp
      simp at hp

/-- C6 (amended): with no insertion between them, two consecutive
`pop_min`s of the `FakeHeap` yield non-decreasing heights — the pop-min
heights within a stabilize only decrease when a poll inserts a node below
the popped height (a Pending request of a not-yet-calculated child, as in
the counterexample above). -/
theorem c6_popmin_monotone (fh : FH) (h1 x1 h2 x2 : Nat)
    (hp1 : (fhPopMin fh).1 = some (h1, x1))
    (hp2 : ((fhPopMin (fhPopMin fh).2).1 = some (h2, x2))) :
    h1 ≤ h2 := by
  have r1 := fhPopAux_some _ _ _ _ hp1
  have r2 := fhPopAux_some _ _ _ _ hp2
  calc h1 = (fhPopMin fh).2.minHeight := r1.2.symm
    _ ≤ h2 := r2.1

/-- Concrete heap for the amended C6 witness: 30 at height 2, 40 at
height 1. -/
def c6wHeap : FH :=
  ((fhInsert (fhNew 4) 2 30).bind (fun fh => fhInsert fh 1 40)).getD (fhNew 4)

/-- Witness for the amended C6: the two pops yield heights 1 then 2. -/
theorem c6_popmin_monotone_witness :
    (fhPopMin c6wHeap).1 = some (1, 40) ∧
    ((fhPopMin (fhPopMin c6wHeap).2).1 = some (2, 30)) ∧ (1 : Nat) ≤ 2 := by
  refine ⟨by decide, by decide, ?_⟩
  exact c6_popmin_monotone c6wHeap 1 40 2 30 (by decide) (by decide)

/-- Reading back through a graph-node write. -/
theorem mgGet_mgSet (g : MG) (i j : Nat) (nd : MGNode) :
    mgGet (mgSet g i nd) j = if j = i then nd else mgGet g j := rfl

/-- The height walk on a single unvisited node that already meets the
target height sets and clears the visited flag and changes nothing else. -/
theorem setMinHeightMG_noraise (f : Nat) (g : MG) (n minH : Nat)
    (hv : (mgGet g n).visited = false) (hh : ¬ ((mgGet g n).height < minH)) :
    setMinHeightMG (f + 1) g n minH =
      some (.ok (mgSet (mgSet g n { mgGet g n with visited := true }) n
        { mgGet (mgSet g n { mgGet g n with visited := true }) n with visited := false })) := by
  show smhNodesMG (f + 1) g [n] minH = _
  rw [smhNodesMG]
  simp only [hv, Bool.false_eq_true, if_false, if_neg hh]
  simp only [smhNodesMG]

/-- Helper for C1: recording a Clean or Necessary edge below an unvisited
parent that is already strictly higher succeeds (its `set_min_height` call
returns without recursing). -/
theorem setEdgeCleanMG_ok (fuel : Nat) (g : MG) (fr tn : Nat) (b : Bool)
    (hf : 1 ≤ fuel) (hh : heightMG g fr < heightMG g tn)
    (hv : (mgGet g tn).visited = false) :
    ∃ g', setEdgeCleanMG fuel g fr tn b = some g' := by
  obtain ⟨f, rfl⟩ : ∃ f, fuel = f + 1 := ⟨fuel - 1, by omega⟩
  have hne : tn ≠ fr := by
    intro he
    rw [he] at hh
    exact absurd hh (lt_irrefl _)
  have harm : setEdgeMG (f + 1) g fr tn (if b then .Necessary else .Clean) =
      setEdgeLiveMG (f + 1) g fr tn b := by
    cases b <;> simp [setEdgeMG]
  unfold setEdgeCleanMG
  rw [harm]
  unfold setEdgeLiveMG
  set g1 := mgSet g fr
    { mgGet g fr with parents := upsertParent (mgGet g fr).parents tn b } with hg1
  set g2 := mgSet g1 tn
    { mgGet g1 tn with children := insertSortedNat (mgGet g1 tn).children fr } with hg2
  have hv2 : (mgGet g2 tn).visited = false := by
    rw [hg2, mgGet_mgSet, if_pos rfl]
    show (mgGet g1 tn).visited = false
    rw [hg1, mgGet_mgSet, if_neg hne]
    exact hv
  have hh2 : ¬ ((mgGet g2 tn).height < heightMG g2 fr + 1) := by
    have e1 : (mgGet g2 tn).height = heightMG g tn := by
      rw [hg2, mgGet_mgSet, if_pos rfl]
      show (mgGet g1 tn).height = heightMG g tn
      rw [hg1, mgGet_mgSet, if_neg hne]
      rfl
    have e2 : heightMG g2 fr = heightMG g fr := by
      rw [heightMG, hg2, mgGet_mgSet, if_neg (Ne.symm hne), hg1, mgGet_mgSet, if_pos rfl]
      rfl
    rw [e1, e2]
    omega
  rw [setMinHeightMG_noraise f g2 tn (heightMG g2 fr + 1) hv2 hh2]
  exact ⟨_, rfl⟩

/-- C1: when the requested child is Ready and already strictly lower than
the calling parent (and the parent's visited flag is clear, as it always is
outside a height walk), `request` returns Updated exactly when the child's
`last_update` exceeds the caller's `last_ready` under the Rust
`Option<Generation>` order (an unset generation below every set one), and
Unchanged otherwise. -/
theorem c1_request_ready_compare (fuel : Nat) (s : Eng) (caller child : Nat)
    (nec : Bool) (hf : 1 ≤ fuel) (hready : qstate s child = .Ready)
    (hh : heightMG s.graph child < heightMG s.graph caller)
    (hv : (mgGet s.graph caller).visited = false) :
    (requestST fuel s caller child nec).map Prod.fst =
      some (if genLt (nget s caller).lastReady (nget s child).lastUpdate
            then PollR.Updated else PollR.Unchanged) := by
  have hhi : decide (heightMG s.graph child < heightMG s.graph caller) = true :=
    decide_eq_true hh
  rw [requestST]
  simp only [hhi, Bool.not_true, Bool.false_eq_true, if_false, hready]
  simp only [ne_eq, not_true_eq_false, if_false]
  by_cases hD : edgeMG s.graph child caller = .Dirty
  · rw [if_pos hD]
    obtain ⟨g', hg'⟩ := setEdgeCleanMG_ok fuel s.graph child caller
      (nec && decide (checkObservedST s caller ≠ .Unnecessary)) hf hh hv
    rw [hg']
    by_cases hc : genLt (nget s caller).lastReady (nget s child).lastUpdate = true
    · simp only [nget] at hc ⊢
      rw [if_pos hc, if_pos hc]
      rfl
    · have hc' : genLt (nget s caller).lastReady (nget s child).lastUpdate = false :=
        Bool.not_eq_true _ ▸ Bool.eq_false_iff.mpr (fun h => hc h)
      simp only [nget] at hc' ⊢
      rw [if_neg (by rw [hc']; exact Bool.false_ne_true), if_neg (by rw [hc']; exact Bool.false_ne_true)]
      rfl
  · rw [if_neg hD]
    by_cases hc : genLt (nget s caller).lastReady (nget s child).lastUpdate = true
    · simp only [nget] at hc ⊢
      rw [if_pos hc, if_pos hc]
      rfl
    · have hc' : genLt (nget s caller).lastReady (nget s child).lastUpdate = false :=
        Bool.not_eq_true _ ▸ Bool.eq_false_iff.mpr (fun h => hc h)
      simp only [nget] at hc' ⊢
      rw [if_neg (by rw [hc']; exact Bool.false_ne_true), if_neg (by rw [hc']; exact Bool.false_ne_true)]
      rfl

/-- Witness input for C1: child 1 is Ready at height 0 with `last_update` 5;
caller 2 sits at height 1 with `last_ready` 3. -/
def c1eng : Eng where
  nodes := fun n =>
    if n = 1 then { lastUpdate := some 5, lastReady := some 5, beh := .var { myVal := 1 } }
    else { lastReady := some 3, beh := .script [] 0 0 }
  graph := fun n => if n = 2 then { height := 1 } else {}
  qstates := fun n => if n = 1 then .Ready else .NeedsRecalc
  heap := fhNew 4
  dirtyMarks := []
  generation := 6
  polls := []
  pendingFlag := false

/-- Witness for C1: the child updated at generation 5 after the caller was
last ready at 3, so `request` reports Updated. -/
theorem c1_request_ready_compare_witness :
    qstate c1eng 1 = QState.Ready ∧
    heightMG c1eng.graph 1 < heightMG c1eng.graph 2 ∧
    (mgGet c1eng.graph 2).visited = false ∧
    (requestST 3 c1eng 2 1 true).map Prod.fst = some PollR.Updated := by
  refine ⟨by decide, by decide, by decide, ?_⟩
  rw [c1_request_ready_compare 3 c1eng 2 1 true (by decide) (by decide) (by decide) (by decide)]
  decide

/-- Queueing a node never touches the context's pending flag. -/
theorem queueRecalcST_flag (s : Eng) (h n : Nat) (s' : Eng)
    (hq : queueRecalcST s h n = some s') : s'.pendingFlag = s.pendingFlag := by
  rw [queueRecalcST] at hq
  split at hq
  · simp only [Option.some.injEq] at hq
    rw [← hq]
  · split at hq
    · exact absurd hq (by simp)
    · simp only [Option.some.injEq] at hq
      rw [← hq]

/-- `mark_node_for_recalculation` never touches the pending flag. -/
theorem markNodeForRecalcST_flag (s : Eng) (n : Nat) (s' : Eng)
    (hq : markNodeForRecalcST s n = some s') : s'.pendingFlag = s.pendingFlag := by
  rw [markNodeForRecalcST] at hq
  split at hq
  · exact queueRecalcST_flag _ _ _ _ hq
  · simp only [Option.some.injEq] at hq
    rw [← hq]

/-- The pending flag after `request` records precisely whether this request
returned Pending (on top of what the flag already held). -/
theorem requestST_flag (fuel : Nat) (s : Eng) (caller child : Nat) (nec : Bool)
    (r : PollR) (s' : Eng) (h : requestST fuel s caller child nec = some (r, s')) :
    s'.pendingFlag = (s.pendingFlag || decide (r = .Pending)) := by
  simp only [requestST] at h
  split at h
  · exact absurd h (by simp)
  · rename_i sr hraise
    have hflag : sr.pendingFlag = s.pendingFlag := by
      split at hraise
      · split at hraise
        · exact absurd hraise (by simp)
        · simp only [Option.some.injEq] at hraise
          rw [← hraise]
      · simp only [Option.some.injEq] at hraise
        rw [← hraise]
    split at h
    · -- child not Ready
      split at h
      · exact absurd h (by simp)
      · rename_i s2 hmark
        have h2 := markNodeForRecalcST_flag _ _ _ hmark
        split at h
        · -- necessary edge recorded
          split at h
          · exact absurd h (by simp)
          · rename_i g hedge
            simp only [Option.some.injEq, Prod.mk.injEq] at h
            obtain ⟨hr, hs⟩ := h
            rw [← hs]
            show s2.pendingFlag = _
            rw [h2]
            show (true : Bool) = _
            rw [← hr]
            simp
        · simp only [Option.some.injEq, Prod.mk.injEq] at h
          obtain ⟨hr, hs⟩ := h
          rw [← hs, h2]
          show (true : Bool) = _
          rw [← hr]
          simp
    · split at h
      · -- Ready but height not increased
        simp only [Option.some.injEq, Prod.mk.injEq] at h
        obtain ⟨hr, hs⟩ := h
        rw [← hs]
        show (true : Bool) = _
        rw [← hr]
        simp
      · -- Ready, compare generations
        split at h
        · exact absurd h (by simp)
        · rename_i s3 hnext
          have h3 : s3.pendingFlag = sr.pendingFlag := by
            split at hnext
            · split at hnext
              · exact absurd hnext (by simp)
              · simp only [Option.some.injEq] at hnext
                rw [← hnext]
            · simp only [Option.some.injEq] at hnext
              rw [← hnext]
          split at h <;>
          · simp only [Option.some.injEq, Prod.mk.injEq] at h
            obtain ⟨hr, hs⟩ := h
            rw [← hs, h3, hflag, ← hr]
            simp

/-- Running a request list: the pending flag afterwards records whether any
request in the list returned Pending. -/
theorem runReqsST_flag (fuel caller : Nat) : ∀ (reqs : List (Nat × Bool)) (s s1 : Eng)
    (results : List PollR), runReqsST fuel s caller reqs = some (s1, results) →
    s1.pendingFlag = (s.pendingFlag || results.contains .Pending) := by
  intro reqs
  induction reqs with
  | nil =>
    intro s s1 results h
    simp only [runReqsST, Option.some.injEq, Prod.mk.injEq] at h
    rw [← h.1, ← h.2]
    simp
  | cons q rest ih =>
    intro s s1 results h
    obtain ⟨c, nec⟩ := q
    rw [runReqsST] at h
    split at h
    · exact absurd h (by simp)
    · rename_i r sa hreq
      split at h
      · exact absurd h (by simp)
      · rename_i sb rs hrest
        simp only [Option.some.injEq, Prod.mk.injEq] at h
        obtain ⟨hs, hres⟩ := h
        have h1 := requestST_flag _ _ _ _ _ _ _ hreq
        have h2 := ih _ _ _ hrest
        rw [← hs, h2, h1, ← hres]
        cases hre : decide (r = PollR.Pending) with
        | true =>
          have : r = PollR.Pending := of_decide_eq_true hre
          subst this
          simp
        | false =>
          have : r ≠ PollR.Pending := of_decide_eq_false hre
          simp only [List.contains_cons]
          rw [show (PollR.Pending == r) = false from by
            cases r <;> simp_all]
          simp

/-- C7: a scripted node (an arbitrary `AnchorInner`) that returns Pending
from `poll_updated`. If none of the requests it made during that poll
returned Pending, `recalculate` panics; if at least one did, `recalculate`
reports the calculation incomplete without panicking, whereupon
`stabilize0` re-enqueues the node at its current height. -/
theorem c7_pending_without_pending_request_panics (fuel : Nat) (s : Eng) (n : Nat)
    (ps : List (List (Nat × Bool) × PollR)) (i outV : Nat) (reqs : List (Nat × Bool))
    (s1 : Eng) (results : List PollR)
    (hbeh : (nget s n).beh = .script ps i outV)
    (hps : ps.get? i = some (reqs, .Pending))
    (hrun : runReqsST fuel { s with pendingFlag := false } n reqs = some (s1, results)) :
    (results.contains PollR.Pending = false → recalculateST fuel s n = none) ∧
    (results.contains PollR.Pending = true →
      recalculateST fuel s n = some (false, setBeh s1 n (.script ps (i + 1) outV)) ∧
      recalcAndRequeueST fuel s n =
        queueRecalcST (setBeh s1 n (.script ps (i + 1) outV))
          (heightMG s1.graph n) n) := by
  have hpoll : pollBehST fuel { s with pendingFlag := false } n =
      some (.Pending, setBeh s1 n (.script ps (i + 1) outV)) := by
    rw [pollBehST]
    have hb : (nget { s with pendingFlag := false } n).beh = .script ps i outV := hbeh
    rw [hb]
    simp only [hps, hrun]
  have hflag : s1.pendingFlag = results.contains .Pending := by
    have := runReqsST_flag fuel n reqs { s with pendingFlag := false } s1 results hrun
    simpa using this
  have hrec : recalculateST fuel s n =
      (if s1.pendingFlag then some (false, setBeh s1 n (.script ps (i + 1) outV))
       else none) := by
    rw [recalculateST, hpoll]
    rfl
  constructor
  · intro hno
    rw [hrec, hflag, hno]
    rfl
  · intro hyes
    have h1 : recalculateST fuel s n = some (false, setBeh s1 n (.script ps (i + 1) outV)) := by
      rw [hrec, hflag, hyes]
      rfl
    refine ⟨h1, ?_⟩
    rw [recalcAndRequeueST, h1]
    rfl

/-- C7 witness input A: a scripted node that returns Pending having made no
requests at all. -/
def c7engA : Eng where
  nodes := fun n =>
    if n = 1 then { beh := .script [([], .Pending)] 0 0 }
    else { beh := .var { myVal := 9 } }
  graph := mgEmpty
  qstates := fun _ => .NeedsRecalc
  heap := fhNew 4
  dirtyMarks := []
  generation := 1
  polls := []
  pendingFlag := false

/-- C7 witness input B: a scripted node that returns Pending after
requesting the not-yet-calculated node 0. -/
def c7engB : Eng where
  nodes := fun n =>
    if n = 1 then { beh := .script [([(0, true)], .Pending)] 0 0 }
    else { beh := .var { myVal := 9 } }
  graph := mgEmpty
  qstates := fun _ => .NeedsRecalc
  heap := fhNew 4
  dirtyMarks := []
  generation := 1
  polls := []
  pendingFlag := false

/-- Witness for C7: on input A the engine panics; on input B the
calculation is merely reported incomplete. -/
theorem c7_pending_protocol_witness :
    recalculateST 5 c7engA 1 = none ∧
    (recalculateST 5 c7engB 1).map Prod.fst = some false := by
  constructor
  · exact (c7_pending_without_pending_request_panics 5 c7engA 1 _ 0 0 [] _ []
      rfl rfl rfl).1 rfl
  · cases hrun : runReqsST 5 { c7engB with pendingFlag := false } 1 [(0, true)] with
    | none =>
      have hs : (runReqsST 5 { c7engB with pendingFlag := false } 1 [(0, true)]).isSome
          = true := by decide
      rw [hrun] at hs
      exact absurd hs (by decide)
    | some p =>
      have hres : (runReqsST 5 { c7engB with pendingFlag := false } 1
          [(0, true)]).map Prod.snd = some [PollR.Pending] := by decide
      rw [hrun] at hres
      simp only [Option.map_some', Option.some.injEq] at hres
      have h2 := (c7_pending_without_pending_request_panics 5 c7engB 1 _ 0 0 [(0, true)]
        p.1 p.2 rfl rfl hrun).2 (by rw [hres]; decide)
      rw [h2.1]
      rfl

/-- A heap whose `min_height` scan is already exhausted: `pop_min` returns
nothing and leaves it untouched. -/
def heapQuiescent (fh : FH) : Prop := fh.lists.length ≤ fh.minHeight

/-- On a quiescent heap `pop_min` is the identity. -/
theorem fhPopMin_quiescent (fh : FH) (hq : heapQuiescent fh) :
    fhPopMin fh = (none, fh) := by
  rw [fhPopMin, fhPopAux, if_neg (not_lt.mpr hq)]

/-- When the scan comes back empty with enough gas, the resulting heap is
quiescent. -/
theorem fhPopAux_none_quiescent (gas : Nat) : ∀ fh : FH,
    fh.lists.length < gas + fh.minHeight → (fhPopAux gas fh).1 = none →
    heapQuiescent (fhPopAux gas fh).2 := by
  induction gas with
  | zero =>
    intro fh hgas hnone
    simp only [fhPopAux]
    exact le_of_lt (by omega)
  | succ gas ih =>
    intro fh hgas hnone
    rw [fhPopAux] at hnone ⊢
    by_cases hlt : fh.minHeight < fh.lists.length
    · rw [if_pos hlt] at hnone ⊢
      cases hl : fh.lists.getD fh.minHeight [] with
      | cons v rest => simp only [hl] at hnone; exact absurd hnone (by simp)
      | nil =>
        simp only [hl] at hnone ⊢
        exact ih _ (by simp; omega) hnone
    · rw [if_neg hlt] at hnone ⊢
      exact not_lt.mp hlt

/-- `pop_min` returning nothing leaves a quiescent heap. -/
theorem fhPopMin_none_quiescent (fh : FH) (hnone : (fhPopMin fh).1 = none) :
    heapQuiescent (fhPopMin fh).2 :=
  fhPopAux_none_quiescent _ fh (by omega) hnone

/-- `stabilize0` only returns once its queue scan is exhausted. -/
theorem stabilize0ST_quiescent (fuel : Nat) : ∀ s s' : Eng,
    stabilize0ST fuel s = some s' → heapQuiescent s'.heap := by
  induction fuel with
  | zero => intro s s' h; simp [stabilize0ST] at h
  | succ fuel ih =>
    intro s s' h
    rw [stabilize0ST] at h
    split at h
    · rename_i s2 hpop
      simp only [Option.some.injEq] at h
      rw [← h]
      rw [popNextST] at hpop
      split at hpop
      · rename_i fh hfh
        simp only [Prod.mk.injEq] at hpop
        obtain ⟨-, hs2⟩ := hpop
        rw [← hs2]
        show heapQuiescent fh
        have : (fhPopMin s.heap).1 = none := by rw [hfh]
        have hq := fhPopMin_none_quiescent _ this
        rw [hfh] at hq
        exact hq
      · simp at hpop
    · rename_i h0 n s2 hpop
      split at h
      · split at h
        · exact absurd h (by simp)
        · rename_i s3 hr
          exact ih _ _ h
      · split at h
        · exact absurd h (by simp)
        · rename_i s3 hr
          exact ih _ _ h

/-- Queueing never touches the buffered dirty marks. -/
theorem queueRecalcST_marks (s : Eng) (h n : Nat) (s' : Eng)
    (hq : queueRecalcST s h n = some s') : s'.dirtyMarks = s.dirtyMarks := by
  rw [queueRecalcST] at hq
  split at hq
  · simp only [Option.some.injEq] at hq
    rw [← hq]
  · split at hq
    · exact absurd hq (by simp)
    · simp only [Option.some.injEq] at hq
      rw [← hq]

/-- `mark_node_for_recalculation` never touches the dirty marks. -/
theorem markNodeForRecalcST_marks (s : Eng) (n : Nat) (s' : Eng)
    (hq : markNodeForRecalcST s n = some s') : s'.dirtyMarks = s.dirtyMarks := by
  rw [markNodeForRecalcST] at hq
  split at hq
  · exact queueRecalcST_marks _ _ _ _ hq
  · simp only [Option.some.injEq] at hq
    rw [← hq]

/-- `needs_recalc` never touches the dirty marks. -/
theorem needsRecalcST_marks (s : Eng) (n : Nat) (s' : Eng)
    (hq : needsRecalcST s n = some s') : s'.dirtyMarks = s.dirtyMarks := by
  rw [needsRecalcST] at hq
  split at hq
  · exact absurd hq (by simp)
  · simp only [Option.some.injEq] at hq
    rw [← hq]

/-- The dirty hooks never touch the dirty marks. -/
theorem dirtyHooksST_marks (child : Nat) : ∀ (l : List Nat) (s s' : Eng),
    dirtyHooksST s child l = some s' → s'.dirtyMarks = s.dirtyMarks := by
  intro l
  induction l with
  | nil =>
    intro s s' h
    simp only [dirtyHooksST, Option.some.injEq] at h
    rw [← h]
  | cons p rest ih =>
    intro s s' h
    rw [dirtyHooksST] at h
    split at h
    · exact absurd h (by simp)
    · rename_i b hb
      rw [ih _ _ h]
      rfl

/-- `request` never touches the dirty marks. -/
theorem requestST_marks (fuel : Nat) (s : Eng) (caller child : Nat) (nec : Bool)
    (r : PollR) (s' : Eng) (h : requestST fuel s caller child nec = some (r, s')) :
    s'.dirtyMarks = s.dirtyMarks := by
  simp only [requestST] at h
  split at h
  · exact absurd h (by simp)
  · rename_i sr hraise
    have hm : sr.dirtyMarks = s.dirtyMarks := by
      split at hraise
      · split at hraise
        · exact absurd hraise (by simp)
        · simp only [Option.some.injEq] at hraise
          rw [← hraise]
      · simp only [Option.some.injEq] at hraise
        rw [← hraise]
    split at h
    · split at h
      · exact absurd h (by simp)
      · rename_i s2 hmark
        have h2 := markNodeForRecalcST_marks _ _ _ hmark
        split at h
        · split at h
          · exact absurd h (by simp)
          · rename_i g hedge
            simp only [Option.some.injEq, Prod.mk.injEq] at h
            obtain ⟨-, hs⟩ := h
            rw [← hs]
            show s2.dirtyMarks = _
            rw [h2]
            show sr.dirtyMarks = _
            rw [hm]
        · simp only [Option.some.injEq, Prod.mk.injEq] at h
          obtain ⟨-, hs⟩ := h
          rw [← hs, h2]
          show sr.dirtyMarks = _
          rw [hm]
    · split at h
      · simp only [Option.some.injEq, Prod.mk.injEq] at h
        obtain ⟨-, hs⟩ := h
        rw [← hs]
        show sr.dirtyMarks = _
        rw [hm]
      · split at h
        · exact absurd h (by simp)
        · rename_i s3 hnext
          have h3 : s3.dirtyMarks = sr.dirtyMarks := by
            split at hnext
            · split at hnext
              · exact absurd hnext (by simp)
              · simp only [Option.some.injEq] at hnext
                rw [← hnext]
            · simp only [Option.some.injEq] at hnext
              rw [← hnext]
          split at h <;>
          · simp only [Option.some.injEq, Prod.mk.injEq] at h
            obtain ⟨-, hs⟩ := h
            rw [← hs, h3, hm]

/-- Scripted request runs never touch the dirty marks. -/
theorem runReqsST_marks (fuel caller : Nat) : ∀ (reqs : List (Nat × Bool)) (s s1 : Eng)
    (results : List PollR), runReqsST fuel s caller reqs = some (s1, results) →
    s1.dirtyMarks = s.dirtyMarks := by
  intro reqs
  induction reqs with
  | nil =>
    intro s s1 results h
    simp only [runReqsST, Option.some.injEq, Prod.mk.injEq] at h
    rw [← h.1]
  | cons q rest ih =>
    intro s s1 results h
    obtain ⟨c, nec⟩ := q
    rw [runReqsST] at h
    split at h
    · exact absurd h (by simp)
    · rename_i r sa hreq
      split at h
      · exact absurd h (by simp)
      · rename_i sb rs hrest
        simp only [Option.some.injEq, Prod.mk.injEq] at h
        obtain ⟨hs, -⟩ := h
        rw [← hs, ih _ _ _ hrest, requestST_marks _ _ _ _ _ _ _ hreq]

/-- Polling a behaviour never touches the dirty marks. -/
theorem pollBehST_marks (fuel : Nat) (s : Eng) (n : Nat) (r : PollR) (s' : Eng)
    (h : pollBehST fuel s n = some (r, s')) : s'.dirtyMarks = s.dirtyMarks := by
  simp only [pollBehST] at h
  split at h
  · -- var
    rename_i v hbeh
    split at h
    · simp only [Option.some.injEq, Prod.mk.injEq] at h
      rw [← h.2]
      rfl
    · split at h <;>
      · simp only [Option.some.injEq, Prod.mk.injEq] at h
        rw [← h.2]
        rfl
  · -- script
    rename_i ps idx outV hbeh
    split at h
    · exact absurd h (by simp)
    · rename_i reqs ret hps
      split at h
      · exact absurd h (by simp)
      · rename_i s1 rs hrun
        simp only [Option.some.injEq, Prod.mk.injEq] at h
        obtain ⟨-, hs⟩ := h
        rw [← hs]
        show s1.dirtyMarks = _
        exact runReqsST_marks _ _ _ _ _ _ hrun
  · -- then1
    rename_i lhs f fA stale hbeh
    split at h
    · -- fA = none or stale
      split at h
      · exact absurd h (by simp)
      · -- lhs request returned Pending
        rename_i s1 hreq1
        simp only [Option.some.injEq, Prod.mk.injEq] at h
        obtain ⟨-, hs⟩ := h
        rw [← hs]
        exact requestST_marks _ _ _ _ _ _ _ hreq1
      · -- lhs request returned Updated/Unchanged
        rename_i r1 s1 hreq1
        have hm1 := requestST_marks _ _ _ _ _ _ _ hreq1
        split at h
        · exact absurd h (by simp)
        · rename_i fA' s3 hrecomp
          have hm3 : s3.dirtyMarks = s.dirtyMarks := by
            split at hrecomp
            · split at hrecomp
              · exact absurd hrecomp (by simp)
              · rename_i v hv
                simp only [Option.some.injEq, Prod.mk.injEq] at hrecomp
                obtain ⟨-, hs3⟩ := hrecomp
                rw [← hs3]
                split
                · split
                  · exact hm1
                  · exact hm1
                · exact hm1
            · simp only [Option.some.injEq, Prod.mk.injEq] at hrecomp
              obtain ⟨-, hs3⟩ := hrecomp
              rw [← hs3, hm1]
          split at h
          · exact absurd h (by simp)
          · rename_i a
            rw [requestST_marks _ _ _ _ _ _ _ h]
            show s3.dirtyMarks = _
            rw [hm3]
    · -- previously selected anchor, not stale
      split at h
      · exact absurd h (by simp)
      · rename_i a
        exact requestST_marks _ _ _ _ _ _ _ h

/-- The dirty-wave loop never touches the buffered dirty marks. -/
theorem markDirtyLoopST_marks (fuel : Nat) : ∀ (queue : List Nat) (s s' : Eng),
    markDirtyLoopST fuel s queue = some s' → s'.dirtyMarks = s.dirtyMarks := by
  induction fuel with
  | zero =>
    intro queue s s' h
    cases queue with
    | nil =>
      simp only [markDirtyLoopST, Option.some.injEq] at h
      rw [← h]
    | cons a t => simp [markDirtyLoopST] at h
  | succ fuel ih =>
    intro queue s s' h
    cases queue with
    | nil =>
      simp only [markDirtyLoopST, Option.some.injEq] at h
      rw [← h]
    | cons next t =>
      rw [markDirtyLoopST] at h
      split at h
      · split at h
        · exact absurd h (by simp)
        · rename_i s1 hmark
          rw [ih _ _ _ h, markNodeForRecalcST_marks _ _ _ hmark]
      · split at h
        · split at h
          · exact absurd h (by simp)
          · rename_i s1 hneeds
            simp only [] at h
            split at h
            · exact absurd h (by simp)
            · rename_i s3 hhooks
              rw [ih _ _ _ h, dirtyHooksST_marks _ _ _ _ hhooks]
              show s1.dirtyMarks = _
              rw [needsRecalcST_marks _ _ _ hneeds]
        · exact ih _ _ _ h

/-- `mark_dirty` never touches the buffered dirty marks. -/
theorem markDirtyST_marks (fuel : Nat) (s : Eng) (node : Nat) (skip : Bool) (s' : Eng)
    (h : markDirtyST fuel s node skip = some s') : s'.dirtyMarks = s.dirtyMarks := by
  rw [markDirtyST] at h
  split at h
  · simp only [] at h
    split at h
    · exact absurd h (by simp)
    · rename_i s2 hhooks
      rw [markDirtyLoopST_marks _ _ _ _ h, dirtyHooksST_marks _ _ _ _ hhooks]
  · exact markDirtyLoopST_marks _ _ _ _ h

/-- `recalculate` never touches the buffered dirty marks. -/
theorem recalculateST_marks (fuel : Nat) (s : Eng) (n : Nat) (c : Bool) (s' : Eng)
    (h : recalculateST fuel s n = some (c, s')) : s'.dirtyMarks = s.dirtyMarks := by
  rw [recalculateST] at h
  split at h
  · exact absurd h (by simp)
  · rename_i s1 hpoll
    have h1 := pollBehST_marks _ _ _ _ _ hpoll
    split at h
    · simp only [Option.some.injEq, Prod.mk.injEq] at h
      rw [← h.2]
      exact h1
    · exact absurd h (by simp)
  · rename_i s1 hpoll
    have h1 := pollBehST_marks _ _ _ _ _ hpoll
    split at h
    · exact absurd h (by simp)
    · rename_i s2 hmd
      simp only [Option.some.injEq, Prod.mk.injEq] at h
      rw [← h.2]
      show s2.dirtyMarks = _
      rw [markDirtyST_marks _ _ _ _ _ hmd]
      exact h1
  · rename_i s1 hpoll
    have h1 := pollBehST_marks _ _ _ _ _ hpoll
    simp only [Option.some.injEq, Prod.mk.injEq] at h
    rw [← h.2]
    exact h1

/-- `pop_next` never touches the buffered dirty marks. -/
theorem popNextST_marks (s : Eng) : (popNextST s).2.dirtyMarks = s.dirtyMarks := by
  rw [popNextST]
  split <;> rfl

/-- On a quiescent heap `pop_next` pops nothing and leaves the state
untouched. -/
theorem popNextST_quiescent (s : Eng) (hq : heapQuiescent s.heap) :
    popNextST s = (none, s) := by
  rw [popNextST, fhPopMin_quiescent _ hq]

/-- One recalc-and-requeue step never touches the buffered dirty marks. -/
theorem recalcAndRequeueST_marks (fuel : Nat) (s : Eng) (n : Nat) (s' : Eng)
    (h : recalcAndRequeueST fuel s n = some s') : s'.dirtyMarks = s.dirtyMarks := by
  rw [recalcAndRequeueST] at h
  split at h
  · exact absurd h (by simp)
  · rename_i s1 hrec
    simp only [Option.some.injEq] at h
    rw [← h]
    exact recalculateST_marks _ _ _ _ _ hrec
  · rename_i s1 hrec
    rw [queueRecalcST_marks _ _ _ _ h]
    exact recalculateST_marks _ _ _ _ _ hrec

/-- `stabilize0` never touches the buffered dirty marks. -/
theorem stabilize0ST_marks (fuel : Nat) : ∀ s s' : Eng,
    stabilize0ST fuel s = some s' → s'.dirtyMarks = s.dirtyMarks := by
  induction fuel with
  | zero => intro s s' h; simp [stabilize0ST] at h
  | succ fuel ih =>
    intro s s' h
    rw [stabilize0ST] at h
    split at h
    · rename_i s1 hpop
      simp only [Option.some.injEq] at h
      have hp := popNextST_marks s
      rw [hpop] at hp
      rw [← h]
      exact hp
    · rename_i hn n s1 hpop
      have hm1 : s1.dirtyMarks = s.dirtyMarks := by
        have hp := popNextST_marks s
        rw [hpop] at hp
        exact hp
      split at h
      · split at h
        · exact absurd h (by simp)
        · rename_i s2 hrr
          rw [ih _ _ h]
          exact (recalcAndRequeueST_marks _ _ _ _ hrr).trans hm1
      · split at h
        · exact absurd h (by simp)
        · rename_i s2 hqr
          rw [ih _ _ h, queueRecalcST_marks _ _ _ _ hqr]
          exact hm1

/-- The drain loop of `update_dirty_marks` never touches the buffered
dirty marks. -/
theorem markListST_marks (fuel : Nat) : ∀ (l : List Nat) (s s' : Eng),
    markListST fuel s l = some s' → s'.dirtyMarks = s.dirtyMarks := by
  intro l
  induction l with
  | nil =>
    intro s s' h
    simp only [markListST, Option.some.injEq] at h
    rw [← h]
  | cons m rest ih =>
    intro s s' h
    rw [markListST] at h
    split at h
    · exact absurd h (by simp)
    · rename_i s1 hmd
      rw [ih _ _ h, markDirtyST_marks _ _ _ _ _ hmd]

/-- `update_dirty_marks` leaves the buffer empty: the marks were taken out
before the drain and the drain adds none back. -/
theorem updateDirtyMarksST_empty (fuel : Nat) (s s' : Eng)
    (h : updateDirtyMarksST fuel s = some s') : s'.dirtyMarks = [] := by
  rw [updateDirtyMarksST] at h
  exact markListST_marks _ _ _ _ h

/-- A state whose dirty-mark buffer is already empty is unchanged by
clearing it. -/
theorem eng_set_marks_eta (s : Eng) (h : s.dirtyMarks = []) :
    { s with dirtyMarks := [] } = s := by
  cases s
  simp_all

/-- A stabilized state re-runs `get` to the same value: with an empty
dirty-mark buffer, a quiescent queue and a Ready target, `get` only bumps
the generation. -/
theorem getRunST_stabilized (f : Nat) (s1 : Eng) (n v : Nat)
    (hq : heapQuiescent s1.heap) (hm : s1.dirtyMarks = [])
    (hout : outputOfST (f + 1) s1.nodes s1.qstates n = some v)
    (h2 : qstate s1 n = QState.Ready) :
    getRunST (f + 1) s1 n = some (v, { s1 with generation := s1.generation + 1 }) := by
  have hU2 : updateDirtyMarksST (f + 1) s1 = some s1 := by
    rw [updateDirtyMarksST, hm, eng_set_marks_eta s1 hm]
    rfl
  have hgq : heapQuiescent ({ s1 with generation := s1.generation + 1 } : Eng).heap := hq
  have hst : stabilize0ST (f + 1) { s1 with generation := s1.generation + 1 } =
      some { s1 with generation := s1.generation + 1 } := by
    rw [stabilize0ST, popNextST_quiescent _ hgq]
  have h2g : qstate { s1 with generation := s1.generation + 1 } n = QState.Ready := h2
  have hout2 : outputOfST (f + 1)
      ({ s1 with generation := s1.generation + 1 } : Eng).nodes
      ({ s1 with generation := s1.generation + 1 } : Eng).qstates n = some v := hout
  simp only [getRunST, stabilizeST, hU2, hst, h2g, hout2, ne_eq, not_true_eq_false,
    if_false, ite_false]

/-- C9: `get` is idempotent on an engine it has just stabilized. If a `get`
returned value `v` leaving state `s1` with the requested node Ready, then a
second `get` returns the same `v`, does not poll any node (the poll log is
unchanged), and changes the state only by the generation increment that
every `stabilize` performs. -/
theorem c9_get_idempotent (fuel : Nat) (s : Eng) (n : Nat) (v : Nat) (s1 : Eng)
    (h1 : getRunST fuel s n = some (v, s1)) (h2 : qstate s1 n = QState.Ready) :
    getRunST fuel s1 n = some (v, { s1 with generation := s1.generation + 1 }) ∧
    ({ s1 with generation := s1.generation + 1 }).polls = s1.polls := by
  cases fuel with
  | zero =>
    exfalso
    simp only [getRunST, stabilizeST] at h1
    cases hU : updateDirtyMarksST 0 s <;> rw [hU] at h1 <;>
      simp [stabilize0ST] at h1
  | succ f =>
    simp only [getRunST, stabilizeST] at h1
    split at h1
    · exact absurd h1 (by simp)
    · rename_i sA hstab
      split at hstab
      · exact absurd hstab (by simp)
      · rename_i sU hU
        have hAq : heapQuiescent sA.heap := stabilize0ST_quiescent _ _ _ hstab
        have hUe : sU.dirtyMarks = [] := updateDirtyMarksST_empty _ _ _ hU
        have hAm : sA.dirtyMarks = [] := (stabilize0ST_marks _ _ _ hstab).trans hUe
        split at h1
        · exact absurd h1 (by simp)
        · rename_i s2 hafter
          split at h1
          · exact absurd h1 (by simp)
          · rename_i v0 hout
            simp only [Option.some.injEq, Prod.mk.injEq] at h1
            obtain ⟨hv, hs⟩ := h1
            subst hv
            subst hs
            split at hafter
            · split at hafter
              · exact absurd hafter (by simp)
              · rename_i sB hqr
                have hq2 := stabilize0ST_quiescent _ _ _ hafter
                have hm2 : s2.dirtyMarks = [] := by
                  rw [stabilize0ST_marks _ _ _ hafter, queueRecalcST_marks _ _ _ _ hqr]
                  exact hAm
                exact ⟨getRunST_stabilized f s2 n v0 hq2 hm2 hout h2, rfl⟩
            · simp only [Option.some.injEq] at hafter
              subst hafter
              exact ⟨getRunST_stabilized f sA n v0 hAq hAm hout h2, rfl⟩

/-- A one-variable engine (value 123) with everything initially unpolled. -/
def c9eng : Eng where
  nodes := fun _ => { beh := .var { myVal := 123 } }
  graph := mgEmpty
  qstates := fun _ => .NeedsRecalc
  heap := fhNew 4
  dirtyMarks := []
  generation := 1
  polls := []
  pendingFlag := false

/-- The engine state left behind by the first `get` on `c9eng`. -/
def c9s1 : Eng := ((getRunST 10 c9eng 0).getD (0, c9eng)).2

theorem c9_get_idempotent_witness :
    getRunST 10 c9s1 0 = some (123, { c9s1 with generation := c9s1.generation + 1 }) ∧
    ({ c9s1 with generation := c9s1.generation + 1 } : Eng).polls = c9s1.polls :=
  c9_get_idempotent 10 c9eng 0 123 c9s1 (by rfl) (by decide)
